import Mathlib

/-!
# Verification of a persistent treap (persist-treap.cpp)

A shallow embedding of the persistent ordered dictionary from
`src/persist-treap.cpp`: an immutable treap (randomized balanced binary
search tree) supporting `split`, `join`, and the set-algebra operations
`union`, `intersection` and `difference`, plus the facade operations
`insert` and `remove`.

Modelling conventions:
* `shared_ptr<Node>` becomes the inductive type `Treap K V`; the null
  pointer is the constructor `Treap.nil`.
* Priorities (`int p`) are `Int`.  The external randomness source
  (`rand()` in the node constructor) is modelled as an explicit priority
  parameter, as the spec requires the priority source to be injectable.
* The `NULL` placeholder value passed by `remove` is modelled as an
  explicit value parameter.
* Copy-on-write cloning is value construction: a clone with overridden
  children is simply a new `Treap.node`.
-/

set_option maxHeartbeats 1000000
set_option linter.unusedSectionVars false
set_option linter.unusedVariables false

namespace PTreap

/-- A treap node: key, value, priority, left and right subtrees.
`nil` is the null `shared_ptr`. -/
inductive Treap (K V : Type) where
  | nil : Treap K V
  | node (key : K) (val : V) (p : Int) (left : Treap K V) (right : Treap K V) : Treap K V
deriving DecidableEq, Repr

variable {K V : Type} [LinearOrder K]

open Treap

/-- In-order traversal, producing the ordered sequence of (key, value) pairs. -/
def toList : Treap K V → List (K × V)
  | nil => []
  | node k x _ l r => toList l ++ (k, x) :: toList r

/-- The keys appearing in a treap, in in-order. -/
def keys (t : Treap K V) : List K := (toList t).map Prod.fst

/-- Number of nodes. -/
def size : Treap K V → Nat
  | nil => 0
  | node _ _ _ l r => size l + size r + 1

/-- The key at the root, when the treap is non-empty. -/
def rootKey : Treap K V → Option K
  | nil => none
  | node k _ _ _ _ => some k

/-- The (key, value) pair at the root, when the treap is non-empty. -/
def rootEntry : Treap K V → Option (K × V)
  | nil => none
  | node k x _ _ _ => some (k, x)

/-- Models the null check `if (a) w->val = a->val; else w->val = d;`. -/
def vOf : Treap K V → V → V
  | nil, d => d
  | node _ x _ _ _, _ => x

/-- Map a function over every stored value, keeping keys, priorities and shape. -/
def mapVal (f : V → V) : Treap K V → Treap K V
  | nil => nil
  | node k x q l r => node k (f x) q (mapVal f l) (mapVal f r)

/-- Every key in the treap satisfies the boolean predicate. -/
def allKeys (f : K → Bool) : Treap K V → Bool
  | nil => true
  | node k _ _ l r => f k && allKeys f l && allKeys f r

/-- Every priority in the treap satisfies the boolean predicate. -/
def allP (f : Int → Bool) : Treap K V → Bool
  | nil => true
  | node _ _ q l r => f q && allP f l && allP f r

/-- Search-tree order invariant: at every node, all keys of the left subtree
are strictly below the node key and all keys of the right subtree strictly
above it. -/
def bst : Treap K V → Bool
  | nil => true
  | node k _ _ l r =>
      allKeys (fun j => decide (j < k)) l && allKeys (fun j => decide (k < j)) r && bst l && bst r

/-- `q` is at most the root priority (vacuously true on the empty treap). -/
def pLe (q : Int) : Treap K V → Bool
  | nil => true
  | node _ _ z _ _ => decide (q ≤ z)

/-- Min-heap invariant on priorities: every node's priority is less than or
equal to the priorities of both of its children. -/
def heap : Treap K V → Bool
  | nil => true
  | node _ _ q l r => pLe q l && pLe q r && heap l && heap r

/-- `split_rec` from the source: recursive split of a treap around `key`,
returning (tree of entries with smaller key, tree of entries with larger
key, the matched node or `nil`).  Ancestors of the split point are cloned
with one child replaced; the matched node is returned as-is, children
included, as it is in the C++ (a `shared_ptr` to the original node). -/
def split_rec : Treap K V → K → Treap K V × Treap K V × Treap K V
  | nil, _ => (nil, nil, nil)
  | node k x q l r, key =>
      if k = key then
        (l, r, node k x q l r)
      else if key < k then
        let s := split_rec l key
        (s.1, node k x q s.2.1 r, s.2.2)
      else
        let s := split_rec r key
        (node k x q l s.1, s.2.1, s.2.2)

/-- The loop body of `split_loop`, with the two pointer-to-`shared_ptr`
"holes" `t1` and `t2` modelled as contexts: writing `*t1 = w` and then
redirecting `t1 = &w->child` corresponds to composing the context with
"place the next tree as that child of `w`".  On loop exit the contexts are
applied to the trees that finally fill the holes (`nil` when `v` runs out). -/
def split_loop_go : Treap K V → K → (Treap K V → Treap K V) → (Treap K V → Treap K V) →
    Treap K V × Treap K V × Treap K V
  | nil, _, f1, f2 => (f1 nil, f2 nil, nil)
  | node k x q l r, key, f1, f2 =>
      if k = key then
        (f1 l, f2 r, node k x q l r)
      else if key < k then
        split_loop_go l key f1 (fun h => f2 (node k x q h r))
      else
        split_loop_go r key (fun h => f1 (node k x q l h)) f2

/-- `split_loop` from the source: the iterative, hole-based split.
Initially both holes point at the (empty) result variables. -/
def split_loop (v : Treap K V) (key : K) : Treap K V × Treap K V × Treap K V :=
  split_loop_go v key id id

/-- `split` from the source: the switcher, which calls `split_loop`. -/
def split (v : Treap K V) (key : K) : Treap K V × Treap K V × Treap K V :=
  split_loop v key

theorem split_loop_go_eq (v : Treap K V) (key : K) (f1 f2 : Treap K V → Treap K V) :
    split_loop_go v key f1 f2 =
      (f1 (split_rec v key).1, f2 (split_rec v key).2.1, (split_rec v key).2.2) := by
  induction v generalizing f1 f2 with
  | nil => simp [split_loop_go, split_rec]
  | node k x q l r ihl ihr =>
      by_cases hk : k = key
      · simp [split_loop_go, split_rec, hk]
      · by_cases hlt : key < k
        · simp [split_loop_go, split_rec, hk, hlt, ihl]
        · simp [split_loop_go, split_rec, hk, hlt, ihr]

/-- The switcher equals the recursive formulation (shared helper). -/
theorem split_eq_rec (v : Treap K V) (key : K) : split v key = split_rec v key := by
  simp [split, split_loop, split_loop_go_eq]

theorem split_rec_size_fst (v : Treap K V) (key : K) :
    size (split_rec v key).1 ≤ size v := by
  induction v with
  | nil => simp [split_rec, size]
  | node k x q l r ihl ihr =>
      by_cases hk : k = key
      · simp [split_rec, hk, size]; omega
      · by_cases hlt : key < k
        · simp [split_rec, hk, hlt, size]; omega
        · simp [split_rec, hk, hlt, size]; omega

theorem split_rec_size_snd (v : Treap K V) (key : K) :
    size (split_rec v key).2.1 ≤ size v := by
  induction v with
  | nil => simp [split_rec, size]
  | node k x q l r ihl ihr =>
      by_cases hk : k = key
      · simp [split_rec, hk, size]; omega
      · by_cases hlt : key < k
        · simp [split_rec, hk, hlt, size]; omega
        · simp [split_rec, hk, hlt, size]; omega

theorem split_size_fst (v : Treap K V) (key : K) : size (split v key).1 ≤ size v := by
  rw [split_eq_rec]; exact split_rec_size_fst v key

theorem split_size_snd (v : Treap K V) (key : K) : size (split v key).2.1 ≤ size v := by
  rw [split_eq_rec]; exact split_rec_size_snd v key

/-- `join` from the source: merge two treaps where every key of `v1` is
below every key of `v2`; the root with the smaller priority wins, ties
going to `v2` (the `else` branch). -/
def join : Treap K V → Treap K V → Treap K V
  | nil, v2 => v2
  | v1, nil => v1
  | node k1 x1 q1 l1 r1, node k2 x2 q2 l2 r2 =>
      if q1 < q2 then
        node k1 x1 q1 l1 (join r1 (node k2 x2 q2 l2 r2))
      else
        node k2 x2 q2 (join (node k1 x1 q1 l1 r1) l2) r2
termination_by v1 v2 => size v1 + size v2
decreasing_by
  · simp [size]; omega
  · simp [size]; omega

/-- `union_helper` from the source: left-biased union.  The root with the
smaller priority becomes the new root; the other tree is split around its
key; when `v2` wins and the matched node `a` from `v1` exists, its value is
kept so the union is left-biased. -/
def union_helper : Treap K V → Treap K V → Treap K V
  | nil, v2 => v2
  | v1, nil => v1
  | node k1 x1 q1 l1 r1, node k2 x2 q2 l2 r2 =>
      if q1 < q2 then
        node k1 x1 q1
          (union_helper l1 (split (node k2 x2 q2 l2 r2) k1).1)
          (union_helper r1 (split (node k2 x2 q2 l2 r2) k1).2.1)
      else
        node k2 (vOf (split (node k1 x1 q1 l1 r1) k2).2.2 x2) q2
          (union_helper (split (node k1 x1 q1 l1 r1) k2).1 l2)
          (union_helper (split (node k1 x1 q1 l1 r1) k2).2.1 r2)
termination_by v1 v2 => size v1 + size v2
decreasing_by
  all_goals
    (have h1 := split_size_fst (node k2 x2 q2 l2 r2) k1
     have h2 := split_size_snd (node k2 x2 q2 l2 r2) k1
     have h3 := split_size_fst (node k1 x1 q1 l1 r1) k2
     have h4 := split_size_snd (node k1 x1 q1 l1 r1) k2
     simp [size] at h1 h2 h3 h4 ⊢
     omega)

/-- `intersect_helper` from the source: intersection keeping values from the
first operand.  A root key survives only when the matched node of the split
of the other tree exists; otherwise the two recursive results are joined. -/
def intersect_helper : Treap K V → Treap K V → Treap K V
  | nil, _ => nil
  | _, nil => nil
  | node k1 x1 q1 l1 r1, node k2 x2 q2 l2 r2 =>
      if q1 < q2 then
        match (split (node k2 x2 q2 l2 r2) k1).2.2 with
        | nil =>
            join (intersect_helper l1 (split (node k2 x2 q2 l2 r2) k1).1)
              (intersect_helper r1 (split (node k2 x2 q2 l2 r2) k1).2.1)
        | node _ _ _ _ _ =>
            node k1 x1 q1
              (intersect_helper l1 (split (node k2 x2 q2 l2 r2) k1).1)
              (intersect_helper r1 (split (node k2 x2 q2 l2 r2) k1).2.1)
      else
        match (split (node k1 x1 q1 l1 r1) k2).2.2 with
        | nil =>
            join (intersect_helper (split (node k1 x1 q1 l1 r1) k2).1 l2)
              (intersect_helper (split (node k1 x1 q1 l1 r1) k2).2.1 r2)
        | node _ av _ _ _ =>
            node k2 av q2
              (intersect_helper (split (node k1 x1 q1 l1 r1) k2).1 l2)
              (intersect_helper (split (node k1 x1 q1 l1 r1) k2).2.1 r2)
termination_by v1 v2 => size v1 + size v2
decreasing_by
  all_goals
    (have h1 := split_size_fst (node k2 x2 q2 l2 r2) k1
     have h2 := split_size_snd (node k2 x2 q2 l2 r2) k1
     have h3 := split_size_fst (node k1 x1 q1 l1 r1) k2
     have h4 := split_size_snd (node k1 x1 q1 l1 r1) k2
     simp [size] at h1 h2 h3 h4 ⊢
     omega)

/-- `difference_helper` from the source: entries of `v1` whose key is not in
`v2`.  The pivot is always `v1`'s root (the priority comparison was removed,
see the source comment); the pivot survives exactly when the matched node of
the split of `v2` is null. -/
def difference_helper : Treap K V → Treap K V → Treap K V
  | nil, _ => nil
  | v1, nil => v1
  | node k1 x1 q1 l1 r1, node k2 x2 q2 l2 r2 =>
      match (split (node k2 x2 q2 l2 r2) k1).2.2 with
      | nil =>
          node k1 x1 q1
            (difference_helper l1 (split (node k2 x2 q2 l2 r2) k1).1)
            (difference_helper r1 (split (node k2 x2 q2 l2 r2) k1).2.1)
      | node _ _ _ _ _ =>
          join (difference_helper l1 (split (node k2 x2 q2 l2 r2) k1).1)
            (difference_helper r1 (split (node k2 x2 q2 l2 r2) k1).2.1)
termination_by v1 v2 => size v1 + size v2
decreasing_by
  all_goals
    (have h1 := split_size_fst (node k2 x2 q2 l2 r2) k1
     have h2 := split_size_snd (node k2 x2 q2 l2 r2) k1
     simp [size] at h1 h2 ⊢
     omega)

/-- `treap_union`: the public facade just unwraps and rewraps the root. -/
def treap_union (t1 t2 : Treap K V) : Treap K V := union_helper t1 t2

/-- `intersection`: the public facade. -/
def intersection (t1 t2 : Treap K V) : Treap K V := intersect_helper t1 t2

/-- `difference`: the public facade. -/
def difference (t1 t2 : Treap K V) : Treap K V := difference_helper t1 t2

/-- The singleton constructor `PersistTreap(key, val)`; the priority drawn
from `rand()` is modelled as the explicit parameter `pr`. -/
def singleton (key : K) (val : V) (pr : Int) : Treap K V := node key val pr nil nil

/-- `insert`: union of a fresh singleton (left operand) with the tree. -/
def insert (t : Treap K V) (key : K) (val : V) (pr : Int) : Treap K V :=
  treap_union (singleton key val pr) t

/-- `remove`: difference with a fresh singleton; `pl` models the `NULL`
placeholder value and `pr` the `rand()` priority of the singleton. -/
def remove (t : Treap K V) (key : K) (pl : V) (pr : Int) : Treap K V :=
  difference t (singleton key pl pr)

/-- In-order list of priorities (proof device for the heap invariant). -/
def prios : Treap K V → List Int
  | nil => []
  | node _ _ q l r => prios l ++ q :: prios r

theorem allKeys_iff (f : K → Bool) (t : Treap K V) :
    allKeys f t = true ↔ ∀ e ∈ toList t, f e.1 = true := by
  induction t with
  | nil => simp [allKeys, toList]
  | node k x q l r ihl ihr =>
      simp only [allKeys, toList, Bool.and_eq_true, ihl, ihr, List.mem_append, List.mem_cons]
      constructor
      · rintro ⟨⟨hf, hl⟩, hr⟩ e he
        rcases he with he | he | he
        · exact hl e he
        · subst he; exact hf
        · exact hr e he
      · intro h
        exact ⟨⟨h (k, x) (Or.inr (Or.inl rfl)), fun e he => h e (Or.inl he)⟩,
          fun e he => h e (Or.inr (Or.inr he))⟩

theorem allP_iff (f : Int → Bool) (t : Treap K V) :
    allP f t = true ↔ ∀ q ∈ prios t, f q = true := by
  induction t with
  | nil => simp [allP, prios]
  | node k x q l r ihl ihr =>
      simp only [allP, prios, Bool.and_eq_true, ihl, ihr, List.mem_append, List.mem_cons]
      constructor
      · rintro ⟨⟨hf, hl⟩, hr⟩ z hz
        rcases hz with hz | hz | hz
        · exact hl z hz
        · subst hz; exact hf
        · exact hr z hz
      · intro h
        exact ⟨⟨h q (Or.inr (Or.inl rfl)), fun z hz => h z (Or.inl hz)⟩,
          fun z hz => h z (Or.inr (Or.inr hz))⟩

theorem allKeys_mono {f g : K → Bool} (h : ∀ j, f j = true → g j = true)
    {t : Treap K V} (ht : allKeys f t = true) : allKeys g t = true := by
  rw [allKeys_iff] at ht ⊢
  exact fun e he => h e.1 (ht e he)

theorem allP_mono {f g : Int → Bool} (h : ∀ z, f z = true → g z = true)
    {t : Treap K V} (ht : allP f t = true) : allP g t = true := by
  rw [allP_iff] at ht ⊢
  exact fun z hz => h z (ht z hz)

theorem pLe_trans {q z : Int} (h : q ≤ z) {t : Treap K V} (ht : pLe z t = true) :
    pLe q t = true := by
  cases t with
  | nil => rfl
  | node k x w l r => simp [pLe] at ht ⊢; omega

theorem pLe_of_allP {q : Int} {t : Treap K V}
    (h : allP (fun z => decide (q ≤ z)) t = true) : pLe q t = true := by
  cases t with
  | nil => rfl
  | node k x w l r => simp [allP] at h; simp [pLe]; exact h.1.1

theorem allP_of_heap_pLe {q : Int} {t : Treap K V} (hh : heap t = true)
    (hp : pLe q t = true) : allP (fun z => decide (q ≤ z)) t = true := by
  induction t with
  | nil => rfl
  | node k x z l r ihl ihr =>
      simp only [heap, Bool.and_eq_true] at hh
      obtain ⟨⟨⟨hl, hr⟩, hhl⟩, hhr⟩ := hh
      simp only [pLe, decide_eq_true_eq] at hp
      simp only [allP, Bool.and_eq_true]
      exact ⟨⟨by simpa using hp, ihl hhl (pLe_trans hp hl)⟩, ihr hhr (pLe_trans hp hr)⟩

theorem allP_root_of_heap {k : K} {x : V} {q : Int} {l r : Treap K V}
    (hh : heap (node k x q l r) = true) :
    allP (fun z => decide (q ≤ z)) (node k x q l r) = true :=
  allP_of_heap_pLe hh (by simp [pLe])

theorem bst_node_parts {k : K} {x : V} {q : Int} {l r : Treap K V}
    (h : bst (node k x q l r) = true) :
    allKeys (fun j => decide (j < k)) l = true ∧ allKeys (fun j => decide (k < j)) r = true ∧
      bst l = true ∧ bst r = true := by
  simp only [bst, Bool.and_eq_true] at h
  exact ⟨h.1.1.1, h.1.1.2, h.1.2, h.2⟩

theorem heap_node_parts {k : K} {x : V} {q : Int} {l r : Treap K V}
    (h : heap (node k x q l r) = true) :
    pLe q l = true ∧ pLe q r = true ∧ heap l = true ∧ heap r = true := by
  simp only [heap, Bool.and_eq_true] at h
  exact ⟨h.1.1.1, h.1.1.2, h.1.2, h.2⟩

theorem split_rec_toList_fst {t : Treap K V} (key : K) (hb : bst t = true) :
    toList (split_rec t key).1 = (toList t).filter (fun e => decide (e.1 < key)) := by
  induction t with
  | nil => simp [split_rec, toList]
  | node k x q l r ihl ihr =>
      obtain ⟨hal, har, hbl, hbr⟩ := bst_node_parts hb
      by_cases hk : k = key
      · subst hk
        have h1 : (toList l).filter (fun e => decide (e.1 < k)) = toList l :=
          List.filter_eq_self.mpr ((allKeys_iff _ _).mp hal)
        have h2 : (toList r).filter (fun e => decide (e.1 < k)) = [] :=
          List.filter_eq_nil_iff.mpr (fun e he => by
            have := (allKeys_iff _ _).mp har e he
            simp only [decide_eq_true_eq] at this ⊢
            exact not_lt_of_lt this)
        simp [split_rec, toList, List.filter_append, h1, h2]
      · by_cases hlt : key < k
        · have h2 : (toList r).filter (fun e => decide (e.1 < key)) = [] :=
            List.filter_eq_nil_iff.mpr (fun e he => by
              have := (allKeys_iff _ _).mp har e he
              simp only [decide_eq_true_eq] at this ⊢
              exact not_lt_of_lt (lt_trans hlt this))
          have hroot : (decide (k < key)) = false := by
            simp only [decide_eq_false_iff_not]
            exact not_lt_of_lt hlt
          simp [split_rec, hk, hlt, toList, List.filter_append, List.filter_cons, hroot, h2,
            ihl hbl]
        · have hgt : k < key := lt_of_le_of_ne (not_lt.mp hlt) hk
          have h1 : (toList l).filter (fun e => decide (e.1 < key)) = toList l :=
            List.filter_eq_self.mpr (fun e he => by
              have := (allKeys_iff _ _).mp hal e he
              simp only [decide_eq_true_eq] at this ⊢
              exact lt_trans this hgt)
          simp [split_rec, hk, hlt, toList, List.filter_append, List.filter_cons, hgt, h1,
            ihr hbr]

theorem split_rec_toList_snd {t : Treap K V} (key : K) (hb : bst t = true) :
    toList (split_rec t key).2.1 = (toList t).filter (fun e => decide (key < e.1)) := by
  induction t with
  | nil => simp [split_rec, toList]
  | node k x q l r ihl ihr =>
      obtain ⟨hal, har, hbl, hbr⟩ := bst_node_parts hb
      by_cases hk : k = key
      · subst hk
        have h1 : (toList l).filter (fun e => decide (k < e.1)) = [] :=
          List.filter_eq_nil_iff.mpr (fun e he => by
            have := (allKeys_iff _ _).mp hal e he
            simp only [decide_eq_true_eq] at this ⊢
            exact not_lt_of_lt this)
        have h2 : (toList r).filter (fun e => decide (k < e.1)) = toList r :=
          List.filter_eq_self.mpr ((allKeys_iff _ _).mp har)
        simp [split_rec, toList, List.filter_append, h1, h2]
      · by_cases hlt : key < k
        · have h2 : (toList r).filter (fun e => decide (key < e.1)) = toList r :=
            List.filter_eq_self.mpr (fun e he => by
              have := (allKeys_iff _ _).mp har e he
              simp only [decide_eq_true_eq] at this ⊢
              exact lt_trans hlt this)
          simp [split_rec, hk, hlt, toList, List.filter_append, List.filter_cons, h2, ihl hbl]
        · have hgt : k < key := lt_of_le_of_ne (not_lt.mp hlt) hk
          have h1 : (toList l).filter (fun e => decide (key < e.1)) = [] :=
            List.filter_eq_nil_iff.mpr (fun e he => by
              have := (allKeys_iff _ _).mp hal e he
              simp only [decide_eq_true_eq] at this ⊢
              exact fun hc => not_lt_of_lt hgt (lt_trans hc this))
          have hroot : (decide (key < k)) = false := by
            simp only [decide_eq_false_iff_not]
            exact not_lt_of_lt hgt
          simp [split_rec, hk, hlt, toList, List.filter_append, List.filter_cons, hroot, h1,
            ihr hbr]

theorem split_rec_matched_nil_iff {t : Treap K V} (key : K) (hb : bst t = true) :
    ((split_rec t key).2.2 = nil ↔ key ∉ keys t) := by
  induction t with
  | nil => simp [split_rec, keys, toList]
  | node k x q l r ihl ihr =>
      obtain ⟨hal, har, hbl, hbr⟩ := bst_node_parts hb
      by_cases hk : k = key
      · subst hk
        simp [split_rec, keys, toList]
      · have hk2 : key ≠ k := fun h => hk h.symm
        by_cases hlt : key < k
        · have hnr : key ∉ (toList r).map Prod.fst := by
            intro hc
            obtain ⟨e, he, hke⟩ := List.mem_map.mp hc
            have := (allKeys_iff _ _).mp har e he
            simp only [decide_eq_true_eq] at this
            exact not_lt_of_lt hlt (hke ▸ this)
          simp only [split_rec, hk, hlt, if_false, if_true, keys, toList, List.map_append,
            List.map_cons, List.mem_append, List.mem_cons]
          rw [ihl hbl]
          simp only [keys]
          constructor
          · intro h hc
            rcases hc with hc | hc | hc
            · exact h hc
            · exact hk2 hc
            · exact hnr hc
          · intro h hc
            exact h (Or.inl hc)
        · have hgt : k < key := lt_of_le_of_ne (not_lt.mp hlt) hk
          have hnl : key ∉ (toList l).map Prod.fst := by
            intro hc
            obtain ⟨e, he, hke⟩ := List.mem_map.mp hc
            have := (allKeys_iff _ _).mp hal e he
            simp only [decide_eq_true_eq] at this
            exact not_lt_of_lt hgt (hke ▸ this)
          simp only [split_rec, hk, hlt, if_false, keys, toList, List.map_append,
            List.map_cons, List.mem_append, List.mem_cons]
          rw [ihr hbr]
          simp only [keys]
          constructor
          · intro h hc
            rcases hc with hc | hc | hc
            · exact hnl hc
            · exact hk2 hc
            · exact h hc
          · intro h hc
            exact h (Or.inr (Or.inr hc))

theorem split_rec_matched_entry {t : Treap K V} (key : K) (hb : bst t = true) :
    ∀ e, rootEntry (split_rec t key).2.2 = some e → e.1 = key ∧ e ∈ toList t := by
  induction t with
  | nil => simp [split_rec, rootEntry]
  | node k x q l r ihl ihr =>
      obtain ⟨hal, har, hbl, hbr⟩ := bst_node_parts hb
      by_cases hk : k = key
      · subst hk
        intro e he
        rw [show (split_rec (node k x q l r) k).2.2 = node k x q l r from by simp [split_rec]]
          at he
        simp only [rootEntry, Option.some_inj] at he
        subst he
        simp [toList]
      · by_cases hlt : key < k
        · intro e he
          simp only [split_rec, hk, hlt, if_false, if_true] at he
          obtain ⟨h1, h2⟩ := ihl hbl e he
          exact ⟨h1, by simp [toList, h2]⟩
        · intro e he
          simp only [split_rec, hk, hlt, if_false] at he
          obtain ⟨h1, h2⟩ := ihr hbr e he
          exact ⟨h1, by simp [toList, h2]⟩

theorem keys_node (k : K) (x : V) (q : Int) (l r : Treap K V) :
    keys (node k x q l r) = keys l ++ k :: keys r := by
  simp [keys, toList]

theorem bst_node_intro {k : K} {x : V} {q : Int} {l r : Treap K V}
    (h1 : allKeys (fun j => decide (j < k)) l = true)
    (h2 : allKeys (fun j => decide (k < j)) r = true)
    (h3 : bst l = true) (h4 : bst r = true) : bst (node k x q l r) = true := by
  simp [bst, h1, h2, h3, h4]

theorem heap_node_intro {k : K} {x : V} {q : Int} {l r : Treap K V}
    (h1 : pLe q l = true) (h2 : pLe q r = true)
    (h3 : heap l = true) (h4 : heap r = true) : heap (node k x q l r) = true := by
  simp [heap, h1, h2, h3, h4]

theorem toList_join (a b : Treap K V) : toList (join a b) = toList a ++ toList b := by
  induction a, b using join.induct with
  | case1 v2 => simp [join, toList]
  | case2 v1 h =>
      cases v1 with
      | nil => simp [join, toList]
      | node k x q l r => simp [join, toList]
  | case3 k1 x1 q1 l1 r1 k2 x2 q2 l2 r2 hq ih =>
      rw [show join (node k1 x1 q1 l1 r1) (node k2 x2 q2 l2 r2) =
        node k1 x1 q1 l1 (join r1 (node k2 x2 q2 l2 r2)) from by
          rw [join]; simp [hq]]
      simp [toList, ih]
  | case4 k1 x1 q1 l1 r1 k2 x2 q2 l2 r2 hq ih =>
      rw [show join (node k1 x1 q1 l1 r1) (node k2 x2 q2 l2 r2) =
        node k2 x2 q2 (join (node k1 x1 q1 l1 r1) l2) r2 from by
          rw [join]; simp [hq]]
      simp [toList, ih]

theorem prios_join (a b : Treap K V) : prios (join a b) = prios a ++ prios b := by
  induction a, b using join.induct with
  | case1 v2 => simp [join, prios]
  | case2 v1 h =>
      cases v1 with
      | nil => simp [join, prios]
      | node k x q l r => simp [join, prios]
  | case3 k1 x1 q1 l1 r1 k2 x2 q2 l2 r2 hq ih =>
      rw [show join (node k1 x1 q1 l1 r1) (node k2 x2 q2 l2 r2) =
        node k1 x1 q1 l1 (join r1 (node k2 x2 q2 l2 r2)) from by
          rw [join]; simp [hq]]
      simp [prios, ih]
  | case4 k1 x1 q1 l1 r1 k2 x2 q2 l2 r2 hq ih =>
      rw [show join (node k1 x1 q1 l1 r1) (node k2 x2 q2 l2 r2) =
        node k2 x2 q2 (join (node k1 x1 q1 l1 r1) l2) r2 from by
          rw [join]; simp [hq]]
      simp [prios, ih]

theorem allKeys_join {f : K → Bool} {a b : Treap K V} :
    allKeys f (join a b) = true ↔ (allKeys f a = true ∧ allKeys f b = true) := by
  simp only [allKeys_iff, toList_join, List.mem_append]
  constructor
  · intro h
    exact ⟨fun e he => h e (Or.inl he), fun e he => h e (Or.inr he)⟩
  · rintro ⟨h1, h2⟩ e he
    rcases he with he | he
    · exact h1 e he
    · exact h2 e he

theorem allP_join {f : Int → Bool} {a b : Treap K V} :
    allP f (join a b) = true ↔ (allP f a = true ∧ allP f b = true) := by
  simp only [allP_iff, prios_join, List.mem_append]
  constructor
  · intro h
    exact ⟨fun z hz => h z (Or.inl hz), fun z hz => h z (Or.inr hz)⟩
  · rintro ⟨h1, h2⟩ z hz
    rcases hz with hz | hz
    · exact h1 z hz
    · exact h2 z hz

theorem heap_join {a b : Treap K V} (ha : heap a = true) (hb : heap b = true) :
    heap (join a b) = true := by
  induction a, b using join.induct with
  | case1 v2 => simpa [join] using hb
  | case2 v1 h =>
      cases v1 with
      | nil => simp [join, heap]
      | node k x q l r => simpa [join] using ha
  | case3 k1 x1 q1 l1 r1 k2 x2 q2 l2 r2 hq ih =>
      obtain ⟨hp1, hp2, hh1, hh2⟩ := heap_node_parts ha
      rw [show join (node k1 x1 q1 l1 r1) (node k2 x2 q2 l2 r2) =
        node k1 x1 q1 l1 (join r1 (node k2 x2 q2 l2 r2)) from by
          rw [join]; simp [hq]]
      refine heap_node_intro hp1 ?_ hh1 (ih hh2 hb)
      refine pLe_of_allP (allP_join.mpr ⟨allP_of_heap_pLe hh2 hp2, ?_⟩)
      exact allP_mono (fun z hz => by
          simp only [decide_eq_true_eq] at hz ⊢
          exact le_trans (le_of_lt hq) hz)
        (allP_root_of_heap hb)
  | case4 k1 x1 q1 l1 r1 k2 x2 q2 l2 r2 hq ih =>
      obtain ⟨hp1, hp2, hh1, hh2⟩ := heap_node_parts hb
      rw [show join (node k1 x1 q1 l1 r1) (node k2 x2 q2 l2 r2) =
        node k2 x2 q2 (join (node k1 x1 q1 l1 r1) l2) r2 from by
          rw [join]; simp [hq]]
      refine heap_node_intro ?_ hp2 (ih ha hh1) hh2
      refine pLe_of_allP (allP_join.mpr ⟨?_, allP_of_heap_pLe hh1 hp1⟩)
      exact allP_mono (fun z hz => by
          simp only [decide_eq_true_eq] at hz ⊢
          exact le_trans (not_lt.mp hq) hz)
        (allP_root_of_heap ha)

theorem mem_keys_of_mem_toList {t : Treap K V} {e : K × V} (h : e ∈ toList t) :
    e.1 ∈ keys t :=
  List.mem_map_of_mem Prod.fst h

theorem bst_join {a b : Treap K V} (ha : bst a = true) (hb : bst b = true)
    (hsep : ∀ j ∈ keys a, ∀ j2 ∈ keys b, j < j2) : bst (join a b) = true := by
  induction a, b using join.induct with
  | case1 v2 => simpa [join] using hb
  | case2 v1 h =>
      cases v1 with
      | nil => simp [join, bst]
      | node k x q l r => simpa [join] using ha
  | case3 k1 x1 q1 l1 r1 k2 x2 q2 l2 r2 hq ih =>
      obtain ⟨hal, har, hbl, hbr⟩ := bst_node_parts ha
      rw [show join (node k1 x1 q1 l1 r1) (node k2 x2 q2 l2 r2) =
        node k1 x1 q1 l1 (join r1 (node k2 x2 q2 l2 r2)) from by
          rw [join]; simp [hq]]
      have hk1 : k1 ∈ keys (node k1 x1 q1 l1 r1) := by
        simp [keys_node]
      refine bst_node_intro hal ?_ hbl ?_
      · refine allKeys_join.mpr ⟨har, ?_⟩
        rw [allKeys_iff]
        intro e he
        simp only [decide_eq_true_eq]
        exact hsep k1 hk1 e.1 (mem_keys_of_mem_toList he)
      · refine ih hbr hb ?_
        intro j hj j2 hj2
        refine hsep j ?_ j2 hj2
        simp only [keys_node, List.mem_append, List.mem_cons]
        exact Or.inr (Or.inr hj)
  | case4 k1 x1 q1 l1 r1 k2 x2 q2 l2 r2 hq ih =>
      obtain ⟨hal, har, hbl, hbr⟩ := bst_node_parts hb
      rw [show join (node k1 x1 q1 l1 r1) (node k2 x2 q2 l2 r2) =
        node k2 x2 q2 (join (node k1 x1 q1 l1 r1) l2) r2 from by
          rw [join]; simp [hq]]
      have hk2 : k2 ∈ keys (node k2 x2 q2 l2 r2) := by
        simp [keys_node]
      refine bst_node_intro ?_ har ?_ hbr
      · refine allKeys_join.mpr ⟨?_, hal⟩
        rw [allKeys_iff]
        intro e he
        simp only [decide_eq_true_eq]
        exact hsep e.1 (mem_keys_of_mem_toList he) k2 hk2
      · refine ih ha hbl ?_
        intro j hj j2 hj2
        refine hsep j hj j2 ?_
        simp only [keys_node, List.mem_append, List.mem_cons]
        exact Or.inl hj2

theorem bst_pairwise {t : Treap K V} (h : bst t = true) :
    (toList t).Pairwise (fun e1 e2 => e1.1 < e2.1) := by
  induction t with
  | nil => simp [toList]
  | node k x q l r ihl ihr =>
      obtain ⟨hal, har, hbl, hbr⟩ := bst_node_parts h
      have hl := (allKeys_iff _ _).mp hal
      have hr := (allKeys_iff _ _).mp har
      simp only [decide_eq_true_eq] at hl hr
      simp only [toList]
      rw [List.pairwise_append]
      refine ⟨ihl hbl, ?_, ?_⟩
      · rw [List.pairwise_cons]
        exact ⟨fun e he => hr e he, ihr hbr⟩
      · intro e1 he1 e2 he2
        rcases List.mem_cons.mp he2 with he2 | he2
        · subst he2; exact hl e1 he1
        · exact lt_trans (hl e1 he1) (hr e2 he2)

theorem pairwise_key_eq {l : List (K × V)}
    (h : l.Pairwise (fun e1 e2 => e1.1 < e2.1)) {k : K} {v v' : V}
    (h1 : (k, v) ∈ l) (h2 : (k, v') ∈ l) : v = v' := by
  induction l with
  | nil => cases h1
  | cons a t ih =>
      rw [List.pairwise_cons] at h
      rcases List.mem_cons.mp h1 with h1 | h1 <;> rcases List.mem_cons.mp h2 with h2 | h2
      · rw [← h1] at h2; exact (Prod.mk.injEq _ _ _ _ ▸ h2.symm).2
      · exact absurd (h.1 (k, v') h2) (by rw [← h1]; simp)
      · exact absurd (h.1 (k, v) h1) (by rw [← h2]; simp)
      · exact ih h.2 h1 h2

theorem pairwise_filter_key {l : List (K × V)}
    (h : l.Pairwise (fun e1 e2 => e1.1 < e2.1)) {k : K} {v : V}
    (hm : (k, v) ∈ l) : l.filter (fun e => decide (e.1 = k)) = [(k, v)] := by
  induction l with
  | nil => cases hm
  | cons a t ih =>
      rw [List.pairwise_cons] at h
      rcases List.mem_cons.mp hm with hm | hm
      · subst hm
        rw [List.filter_cons]
        simp only [decide_True, if_pos]
        have : t.filter (fun e => decide (e.1 = k)) = [] :=
          List.filter_eq_nil_iff.mpr (fun e he => by
            have := h.1 e he
            simp only [decide_eq_true_eq]
            intro hc
            rw [hc] at this
            exact lt_irrefl k this)
        simp [this]
      · have hak : a.1 < k := h.1 (k, v) hm
        rw [List.filter_cons]
        have : (decide (a.1 = k)) = false := by
          simp only [decide_eq_false_iff_not]
          intro hc
          rw [hc] at hak
          exact lt_irrefl k hak
        simp only [this, if_neg, Bool.false_eq_true, if_false]
        exact ih h.2 hm

theorem sorted_decomp {l : List (K × V)}
    (h : l.Pairwise (fun e1 e2 => e1.1 < e2.1)) (k : K) :
    l = l.filter (fun e => decide (e.1 < k)) ++ l.filter (fun e => decide (e.1 = k)) ++
      l.filter (fun e => decide (k < e.1)) := by
  induction l with
  | nil => simp
  | cons a t ih =>
      rw [List.pairwise_cons] at h
      rcases lt_trichotomy a.1 k with hc | hc | hc
      · have h1 : (decide (a.1 < k)) = true := by simpa using hc
        have h2 : (decide (a.1 = k)) = false := by simp; exact ne_of_lt hc
        have h3 : (decide (k < a.1)) = false := by simp; exact le_of_lt hc
        simp only [List.filter_cons, h1, h2, h3, Bool.false_eq_true, if_true, if_false]
        rw [List.cons_append, List.cons_append]
        rw [← ih h.2]
      · have h1 : (decide (a.1 < k)) = false := by simp; rw [hc]
        have h2 : (decide (a.1 = k)) = true := by simpa using hc
        have h3 : (decide (k < a.1)) = false := by simp; rw [hc]
        have ht1 : t.filter (fun e => decide (e.1 < k)) = [] :=
          List.filter_eq_nil_iff.mpr (fun e he => by
            have := h.1 e he
            simp only [decide_eq_true_eq]
            rw [← hc]
            exact not_lt_of_lt this)
        have ht2 : t.filter (fun e => decide (e.1 = k)) = [] :=
          List.filter_eq_nil_iff.mpr (fun e he => by
            have := h.1 e he
            simp only [decide_eq_true_eq]
            intro hcc
            rw [hcc, ← hc] at this
            exact lt_irrefl a.1 this)
        have ht3 : t.filter (fun e => decide (k < e.1)) = t :=
          List.filter_eq_self.mpr (fun e he => by
            have := h.1 e he
            simp only [decide_eq_true_eq]
            rw [← hc]
            exact this)
        simp only [List.filter_cons, h1, h2, h3, Bool.false_eq_true, if_true, if_false,
          ht1, ht2, ht3]
        simp
      · have h1 : (decide (a.1 < k)) = false := by simp; exact le_of_lt hc
        have h2 : (decide (a.1 = k)) = false := by simp; exact ne_of_gt hc
        have h3 : (decide (k < a.1)) = true := by simpa using hc
        have ht1 : t.filter (fun e => decide (e.1 < k)) = [] :=
          List.filter_eq_nil_iff.mpr (fun e he => by
            have := h.1 e he
            simp only [decide_eq_true_eq]
            exact not_lt_of_lt (lt_trans hc this))
        have ht2 : t.filter (fun e => decide (e.1 = k)) = [] :=
          List.filter_eq_nil_iff.mpr (fun e he => by
            have := h.1 e he
            simp only [decide_eq_true_eq]
            intro hcc
            rw [hcc] at this
            exact not_lt_of_lt hc this)
        have ht3 : t.filter (fun e => decide (k < e.1)) = t :=
          List.filter_eq_self.mpr (fun e he => by
            have := h.1 e he
            simp only [decide_eq_true_eq]
            exact lt_trans hc this)
        simp only [List.filter_cons, h1, h2, h3, Bool.false_eq_true, if_true, if_false,
          ht1, ht2, ht3]
        simp

theorem split_rec_allKeys {f : K → Bool} {t : Treap K V} (key : K)
    (h : allKeys f t = true) :
    allKeys f (split_rec t key).1 = true ∧ allKeys f (split_rec t key).2.1 = true := by
  induction t with
  | nil => simp [split_rec, allKeys]
  | node k x q l r ihl ihr =>
      simp only [allKeys, Bool.and_eq_true] at h
      obtain ⟨⟨hf, hl⟩, hr⟩ := h
      by_cases hk : k = key
      · subst hk
        simp [split_rec, hl, hr]
      · by_cases hlt : key < k
        · obtain ⟨ih1, ih2⟩ := ihl hl
          simp [split_rec, hk, hlt, allKeys, ih1, ih2, hf, hr]
        · obtain ⟨ih1, ih2⟩ := ihr hr
          simp [split_rec, hk, hlt, allKeys, ih1, ih2, hf, hl]

theorem split_rec_allP {f : Int → Bool} {t : Treap K V} (key : K)
    (h : allP f t = true) :
    allP f (split_rec t key).1 = true ∧ allP f (split_rec t key).2.1 = true := by
  induction t with
  | nil => simp [split_rec, allP]
  | node k x q l r ihl ihr =>
      simp only [allP, Bool.and_eq_true] at h
      obtain ⟨⟨hf, hl⟩, hr⟩ := h
      by_cases hk : k = key
      · subst hk
        simp [split_rec, hl, hr]
      · by_cases hlt : key < k
        · obtain ⟨ih1, ih2⟩ := ihl hl
          simp [split_rec, hk, hlt, allP, ih1, ih2, hf, hr]
        · obtain ⟨ih1, ih2⟩ := ihr hr
          simp [split_rec, hk, hlt, allP, ih1, ih2, hf, hl]

theorem split_rec_bst {t : Treap K V} (key : K) (h : bst t = true) :
    bst (split_rec t key).1 = true ∧ bst (split_rec t key).2.1 = true := by
  induction t with
  | nil => simp [split_rec, bst]
  | node k x q l r ihl ihr =>
      obtain ⟨hal, har, hbl, hbr⟩ := bst_node_parts h
      by_cases hk : k = key
      · subst hk
        simp [split_rec, hbl, hbr]
      · by_cases hlt : key < k
        · obtain ⟨ih1, ih2⟩ := ihl hbl
          have hb2 : allKeys (fun j => decide (j < k)) (split_rec l key).2.1 = true :=
            (split_rec_allKeys key hal).2
          refine ⟨by simpa [split_rec, hk, hlt] using ih1, ?_⟩
          simp only [split_rec, hk, hlt, if_false, if_true]
          exact bst_node_intro hb2 har ih2 hbr
        · obtain ⟨ih1, ih2⟩ := ihr hbr
          have hb1 : allKeys (fun j => decide (k < j)) (split_rec r key).1 = true :=
            (split_rec_allKeys key har).1
          refine ⟨?_, by simpa [split_rec, hk, hlt] using ih2⟩
          simp only [split_rec, hk, hlt, if_false]
          exact bst_node_intro hal hb1 hbl ih1

theorem split_rec_heap {t : Treap K V} (key : K) (h : heap t = true) :
    heap (split_rec t key).1 = true ∧ heap (split_rec t key).2.1 = true := by
  induction t with
  | nil => simp [split_rec, heap]
  | node k x q l r ihl ihr =>
      obtain ⟨hp1, hp2, hhl, hhr⟩ := heap_node_parts h
      by_cases hk : k = key
      · subst hk
        simp [split_rec, hhl, hhr]
      · by_cases hlt : key < k
        · obtain ⟨ih1, ih2⟩ := ihl hhl
          have hq2 : pLe q (split_rec l key).2.1 = true :=
            pLe_of_allP (split_rec_allP key (allP_of_heap_pLe hhl hp1)).2
          refine ⟨by simpa [split_rec, hk, hlt] using ih1, ?_⟩
          simp only [split_rec, hk, hlt, if_false, if_true]
          exact heap_node_intro hq2 hp2 ih2 hhr
        · obtain ⟨ih1, ih2⟩ := ihr hhr
          have hq1 : pLe q (split_rec r key).1 = true :=
            pLe_of_allP (split_rec_allP key (allP_of_heap_pLe hhr hp2)).1
          refine ⟨?_, by simpa [split_rec, hk, hlt] using ih2⟩
          simp only [split_rec, hk, hlt, if_false]
          exact heap_node_intro hp1 hq1 hhl ih1

theorem split_toList_fst {t : Treap K V} (key : K) (hb : bst t = true) :
    toList (split t key).1 = (toList t).filter (fun e => decide (e.1 < key)) := by
  rw [split_eq_rec]; exact split_rec_toList_fst key hb

theorem split_toList_snd {t : Treap K V} (key : K) (hb : bst t = true) :
    toList (split t key).2.1 = (toList t).filter (fun e => decide (key < e.1)) := by
  rw [split_eq_rec]; exact split_rec_toList_snd key hb

theorem split_matched_nil_iff {t : Treap K V} (key : K) (hb : bst t = true) :
    ((split t key).2.2 = nil ↔ key ∉ keys t) := by
  rw [split_eq_rec]; exact split_rec_matched_nil_iff key hb

theorem split_matched_entry {t : Treap K V} (key : K) (hb : bst t = true) :
    ∀ e, rootEntry (split t key).2.2 = some e → e.1 = key ∧ e ∈ toList t := by
  rw [split_eq_rec]; exact split_rec_matched_entry key hb

theorem split_allKeys {f : K → Bool} {t : Treap K V} (key : K) (h : allKeys f t = true) :
    allKeys f (split t key).1 = true ∧ allKeys f (split t key).2.1 = true := by
  rw [split_eq_rec]; exact split_rec_allKeys key h

theorem split_allP {f : Int → Bool} {t : Treap K V} (key : K) (h : allP f t = true) :
    allP f (split t key).1 = true ∧ allP f (split t key).2.1 = true := by
  rw [split_eq_rec]; exact split_rec_allP key h

theorem split_bst {t : Treap K V} (key : K) (h : bst t = true) :
    bst (split t key).1 = true ∧ bst (split t key).2.1 = true := by
  rw [split_eq_rec]; exact split_rec_bst key h

theorem split_heap {t : Treap K V} (key : K) (h : heap t = true) :
    heap (split t key).1 = true ∧ heap (split t key).2.1 = true := by
  rw [split_eq_rec]; exact split_rec_heap key h

/-- Keys of the first split component, under the search-tree invariant:
everything is strictly below the split key. -/
theorem split_allKeys_lt {t : Treap K V} (key : K) (hb : bst t = true) :
    allKeys (fun j => decide (j < key)) (split t key).1 = true := by
  rw [allKeys_iff]
  intro e he
  rw [split_toList_fst key hb] at he
  exact (List.mem_filter.mp he).2

/-- Keys of the second split component, under the search-tree invariant:
everything is strictly above the split key. -/
theorem split_allKeys_gt {t : Treap K V} (key : K) (hb : bst t = true) :
    allKeys (fun j => decide (key < j)) (split t key).2.1 = true := by
  rw [allKeys_iff]
  intro e he
  rw [split_toList_snd key hb] at he
  exact (List.mem_filter.mp he).2

theorem mem_keys_iff {t : Treap K V} {j : K} :
    j ∈ keys t ↔ ∃ w, (j, w) ∈ toList t := by
  simp only [keys, List.mem_map]
  constructor
  · rintro ⟨e, he, hj⟩
    exact ⟨e.2, by rwa [show (j, e.2) = e from by rw [← hj]]⟩
  · rintro ⟨w, hw⟩
    exact ⟨(j, w), hw, rfl⟩

theorem mem_toList_lt {t : Treap K V} {kk : K}
    (h : allKeys (fun j => decide (j < kk)) t = true) {k : K} {v : V}
    (hm : (k, v) ∈ toList t) : k < kk := by
  have := (allKeys_iff _ _).mp h _ hm
  simpa using this

theorem mem_toList_gt {t : Treap K V} {kk : K}
    (h : allKeys (fun j => decide (kk < j)) t = true) {k : K} {v : V}
    (hm : (k, v) ∈ toList t) : kk < k := by
  have := (allKeys_iff _ _).mp h _ hm
  simpa using this

theorem mem_keys_lt {t : Treap K V} {kk : K}
    (h : allKeys (fun j => decide (j < kk)) t = true) {k : K} (hm : k ∈ keys t) :
    k < kk := by
  obtain ⟨w, hw⟩ := mem_keys_iff.mp hm
  exact mem_toList_lt h hw

theorem mem_keys_gt {t : Treap K V} {kk : K}
    (h : allKeys (fun j => decide (kk < j)) t = true) {k : K} (hm : k ∈ keys t) :
    kk < k := by
  obtain ⟨w, hw⟩ := mem_keys_iff.mp hm
  exact mem_toList_gt h hw

theorem mem_split_fst {t : Treap K V} (key : K) (hb : bst t = true) {k : K} {v : V} :
    (k, v) ∈ toList (split t key).1 ↔ ((k, v) ∈ toList t ∧ k < key) := by
  rw [split_toList_fst key hb]
  simp [List.mem_filter]

theorem mem_split_snd {t : Treap K V} (key : K) (hb : bst t = true) {k : K} {v : V} :
    (k, v) ∈ toList (split t key).2.1 ↔ ((k, v) ∈ toList t ∧ key < k) := by
  rw [split_toList_snd key hb]
  simp [List.mem_filter]

theorem mem_keys_split_fst {t : Treap K V} (key : K) (hb : bst t = true) {j : K} :
    j ∈ keys (split t key).1 ↔ (j ∈ keys t ∧ j < key) := by
  constructor
  · intro h
    obtain ⟨w, hw⟩ := mem_keys_iff.mp h
    obtain ⟨h1, h2⟩ := (mem_split_fst key hb).mp hw
    exact ⟨mem_keys_of_mem_toList h1, h2⟩
  · rintro ⟨h1, h2⟩
    obtain ⟨w, hw⟩ := mem_keys_iff.mp h1
    exact mem_keys_of_mem_toList ((mem_split_fst key hb).mpr ⟨hw, h2⟩)

theorem mem_keys_split_snd {t : Treap K V} (key : K) (hb : bst t = true) {j : K} :
    j ∈ keys (split t key).2.1 ↔ (j ∈ keys t ∧ key < j) := by
  constructor
  · intro h
    obtain ⟨w, hw⟩ := mem_keys_iff.mp h
    obtain ⟨h1, h2⟩ := (mem_split_snd key hb).mp hw
    exact ⟨mem_keys_of_mem_toList h1, h2⟩
  · rintro ⟨h1, h2⟩
    obtain ⟨w, hw⟩ := mem_keys_iff.mp h1
    exact mem_keys_of_mem_toList ((mem_split_snd key hb).mpr ⟨hw, h2⟩)

theorem union_nil_left (v2 : Treap K V) : union_helper nil v2 = v2 := by
  rw [union_helper]

theorem union_nil_right (v1 : Treap K V) : union_helper v1 nil = v1 := by
  cases v1 with
  | nil => rw [union_helper]
  | node k x q l r =>
      rw [union_helper]
      simp

theorem union_eq_lt {k1 k2 : K} {x1 x2 : V} {q1 q2 : Int} {l1 r1 l2 r2 : Treap K V}
    (hq : q1 < q2) :
    union_helper (node k1 x1 q1 l1 r1) (node k2 x2 q2 l2 r2) =
      node k1 x1 q1
        (union_helper l1 (split (node k2 x2 q2 l2 r2) k1).1)
        (union_helper r1 (split (node k2 x2 q2 l2 r2) k1).2.1) := by
  rw [union_helper]
  simp [hq]

theorem union_eq_ge {k1 k2 : K} {x1 x2 : V} {q1 q2 : Int} {l1 r1 l2 r2 : Treap K V}
    (hq : ¬ q1 < q2) :
    union_helper (node k1 x1 q1 l1 r1) (node k2 x2 q2 l2 r2) =
      node k2 (vOf (split (node k1 x1 q1 l1 r1) k2).2.2 x2) q2
        (union_helper (split (node k1 x1 q1 l1 r1) k2).1 l2)
        (union_helper (split (node k1 x1 q1 l1 r1) k2).2.1 r2) := by
  rw [union_helper]
  simp [hq]

theorem allKeys_union {f : K → Bool} {a b : Treap K V}
    (ha : allKeys f a = true) (hb : allKeys f b = true) :
    allKeys f (union_helper a b) = true := by
  induction a, b using union_helper.induct with
  | case1 v2 => simpa [union_nil_left] using hb
  | case2 v1 h => simpa [union_nil_right] using ha
  | case3 k1 x1 q1 l1 r1 k2 x2 q2 l2 r2 hq ih1 ih2 =>
      simp only [allKeys, Bool.and_eq_true] at ha
      obtain ⟨⟨hf, hl⟩, hr⟩ := ha
      rw [union_eq_lt hq]
      simp only [allKeys, Bool.and_eq_true]
      exact ⟨⟨hf, ih1 hl (split_allKeys k1 hb).1⟩, ih2 hr (split_allKeys k1 hb).2⟩
  | case4 k1 x1 q1 l1 r1 k2 x2 q2 l2 r2 hq ih1 ih2 =>
      simp only [allKeys, Bool.and_eq_true] at hb
      obtain ⟨⟨hf, hl⟩, hr⟩ := hb
      rw [union_eq_ge hq]
      simp only [allKeys, Bool.and_eq_true]
      exact ⟨⟨hf, ih1 (split_allKeys k2 ha).1 hl⟩, ih2 (split_allKeys k2 ha).2 hr⟩

theorem allP_union {f : Int → Bool} {a b : Treap K V}
    (ha : allP f a = true) (hb : allP f b = true) :
    allP f (union_helper a b) = true := by
  induction a, b using union_helper.induct with
  | case1 v2 => simpa [union_nil_left] using hb
  | case2 v1 h => simpa [union_nil_right] using ha
  | case3 k1 x1 q1 l1 r1 k2 x2 q2 l2 r2 hq ih1 ih2 =>
      simp only [allP, Bool.and_eq_true] at ha
      obtain ⟨⟨hf, hl⟩, hr⟩ := ha
      rw [union_eq_lt hq]
      simp only [allP, Bool.and_eq_true]
      exact ⟨⟨hf, ih1 hl (split_allP k1 hb).1⟩, ih2 hr (split_allP k1 hb).2⟩
  | case4 k1 x1 q1 l1 r1 k2 x2 q2 l2 r2 hq ih1 ih2 =>
      simp only [allP, Bool.and_eq_true] at hb
      obtain ⟨⟨hf, hl⟩, hr⟩ := hb
      rw [union_eq_ge hq]
      simp only [allP, Bool.and_eq_true]
      exact ⟨⟨hf, ih1 (split_allP k2 ha).1 hl⟩, ih2 (split_allP k2 ha).2 hr⟩

theorem bst_union {a b : Treap K V} :
    bst a = true → bst b = true → bst (union_helper a b) = true := by
  induction a, b using union_helper.induct with
  | case1 v2 => intro _ hb; simpa [union_nil_left] using hb
  | case2 v1 h => intro ha _; simpa [union_nil_right] using ha
  | case3 k1 x1 q1 l1 r1 k2 x2 q2 l2 r2 hq ih1 ih2 =>
      intro ha hb
      obtain ⟨hal, har, hbl, hbr⟩ := bst_node_parts ha
      rw [union_eq_lt hq]
      refine bst_node_intro ?_ ?_ ?_ ?_
      · exact allKeys_union hal (split_allKeys_lt k1 hb)
      · exact allKeys_union har (split_allKeys_gt k1 hb)
      · exact ih1 hbl (split_bst k1 hb).1
      · exact ih2 hbr (split_bst k1 hb).2
  | case4 k1 x1 q1 l1 r1 k2 x2 q2 l2 r2 hq ih1 ih2 =>
      intro ha hb
      obtain ⟨hal, har, hbl, hbr⟩ := bst_node_parts hb
      rw [union_eq_ge hq]
      refine bst_node_intro ?_ ?_ ?_ ?_
      · exact allKeys_union (split_allKeys_lt k2 ha) hal
      · exact allKeys_union (split_allKeys_gt k2 ha) har
      · exact ih1 (split_bst k2 ha).1 hbl
      · exact ih2 (split_bst k2 ha).2 hbr

theorem heap_union {a b : Treap K V} :
    heap a = true → heap b = true → heap (union_helper a b) = true := by
  induction a, b using union_helper.induct with
  | case1 v2 => intro _ hb; simpa [union_nil_left] using hb
  | case2 v1 h => intro ha _; simpa [union_nil_right] using ha
  | case3 k1 x1 q1 l1 r1 k2 x2 q2 l2 r2 hq ih1 ih2 =>
      intro ha hb
      obtain ⟨hp1, hp2, hhl, hhr⟩ := heap_node_parts ha
      have hb1 : allP (fun z => decide (q1 ≤ z)) (node k2 x2 q2 l2 r2) = true :=
        allP_mono (fun z hz => by
            simp only [decide_eq_true_eq] at hz ⊢
            exact le_trans (le_of_lt hq) hz)
          (allP_root_of_heap hb)
      rw [union_eq_lt hq]
      refine heap_node_intro ?_ ?_ ?_ ?_
      · exact pLe_of_allP (allP_union (allP_of_heap_pLe hhl hp1) (split_allP k1 hb1).1)
      · exact pLe_of_allP (allP_union (allP_of_heap_pLe hhr hp2) (split_allP k1 hb1).2)
      · exact ih1 hhl (split_heap k1 hb).1
      · exact ih2 hhr (split_heap k1 hb).2
  | case4 k1 x1 q1 l1 r1 k2 x2 q2 l2 r2 hq ih1 ih2 =>
      intro ha hb
      obtain ⟨hp1, hp2, hhl, hhr⟩ := heap_node_parts hb
      have ha1 : allP (fun z => decide (q2 ≤ z)) (node k1 x1 q1 l1 r1) = true :=
        allP_mono (fun z hz => by
            simp only [decide_eq_true_eq] at hz ⊢
            exact le_trans (not_lt.mp hq) hz)
          (allP_root_of_heap ha)
      rw [union_eq_ge hq]
      refine heap_node_intro ?_ ?_ ?_ ?_
      · exact pLe_of_allP (allP_union (split_allP k2 ha1).1 (allP_of_heap_pLe hhl hp1))
      · exact pLe_of_allP (allP_union (split_allP k2 ha1).2 (allP_of_heap_pLe hhr hp2))
      · exact ih1 (split_heap k2 ha).1 hhl
      · exact ih2 (split_heap k2 ha).2 hhr

theorem mem_toList_node {k1 : K} {x1 : V} {q1 : Int} {l r : Treap K V} {e : K × V} :
    e ∈ toList (node k1 x1 q1 l r) ↔ (e ∈ toList l ∨ e = (k1, x1) ∨ e ∈ toList r) := by
  simp [toList]

theorem mem_keys_node {k1 : K} {x1 : V} {q1 : Int} {l r : Treap K V} {j : K} :
    j ∈ keys (node k1 x1 q1 l r) ↔ (j ∈ keys l ∨ j = k1 ∨ j ∈ keys r) := by
  simp [keys_node]

theorem union_mem {a b : Treap K V} :
    bst a = true → bst b = true → ∀ (k : K) (v : V),
      ((k, v) ∈ toList (union_helper a b) ↔
        ((k, v) ∈ toList a ∨ (k ∉ keys a ∧ (k, v) ∈ toList b))) := by
  induction a, b using union_helper.induct with
  | case1 v2 =>
      intro _ _ k v
      simp [union_nil_left, toList, keys]
  | case2 v1 h =>
      intro _ _ k v
      simp [union_nil_right, toList, keys]
  | case3 k1 x1 q1 l1 r1 k2 x2 q2 l2 r2 hq ih1 ih2 =>
      intro ha hb k v
      obtain ⟨hal, har, hbl, hbr⟩ := bst_node_parts ha
      have hi1 := ih1 hbl (split_bst k1 hb).1 k v
      have hi2 := ih2 hbr (split_bst k1 hb).2 k v
      have hmf := mem_split_fst (t := node k2 x2 q2 l2 r2) k1 hb (k := k) (v := v)
      have hms := mem_split_snd (t := node k2 x2 q2 l2 r2) k1 hb (k := k) (v := v)
      have hml : (k, v) ∈ toList l1 → k < k1 := mem_toList_lt hal
      have hmr : (k, v) ∈ toList r1 → k1 < k := mem_toList_gt har
      have hkl : k ∈ keys l1 → k < k1 := mem_keys_lt hal
      have hkr : k ∈ keys r1 → k1 < k := mem_keys_gt har
      rw [union_eq_lt hq, mem_toList_node]
      rcases lt_trichotomy k k1 with hc | hc | hc
      · have hc1 : ¬ (k1 < k) := not_lt_of_lt hc
        have hc2 : ¬ (k = k1) := ne_of_lt hc
        constructor
        · rintro (hm | hm | hm)
          · rcases hi1.mp hm with hm | ⟨hnk, hm⟩
            · exact Or.inl (mem_toList_node.mpr (Or.inl hm))
            · refine Or.inr ⟨?_, (hmf.mp hm).1⟩
              intro hkA
              rcases mem_keys_node.mp hkA with h | h | h
              · exact hnk h
              · exact hc2 h
              · exact hc1 (hkr h)
          · exact Or.inl (mem_toList_node.mpr (Or.inr (Or.inl hm)))
          · rcases hi2.mp hm with hm | ⟨_, hm⟩
            · exact absurd (hmr hm) hc1
            · exact absurd ((hms.mp hm).2) hc1
        · rintro (hm | ⟨hnk, hm⟩)
          · rcases mem_toList_node.mp hm with hm | hm | hm
            · exact Or.inl (hi1.mpr (Or.inl hm))
            · exact Or.inr (Or.inl hm)
            · exact absurd (hmr hm) hc1
          · refine Or.inl (hi1.mpr (Or.inr ⟨?_, hmf.mpr ⟨hm, hc⟩⟩))
            intro hkl1
            exact hnk (mem_keys_node.mpr (Or.inl hkl1))
      · subst hc
        constructor
        · rintro (hm | hm | hm)
          · rcases hi1.mp hm with hm | ⟨_, hm⟩
            · exact absurd (hml hm) (lt_irrefl _)
            · exact absurd ((hmf.mp hm).2) (lt_irrefl _)
          · exact Or.inl (mem_toList_node.mpr (Or.inr (Or.inl hm)))
          · rcases hi2.mp hm with hm | ⟨_, hm⟩
            · exact absurd (hmr hm) (lt_irrefl _)
            · exact absurd ((hms.mp hm).2) (lt_irrefl _)
        · rintro (hm | ⟨hnk, hm⟩)
          · rcases mem_toList_node.mp hm with hm | hm | hm
            · exact absurd (hml hm) (lt_irrefl _)
            · exact Or.inr (Or.inl hm)
            · exact absurd (hmr hm) (lt_irrefl _)
          · exact absurd (mem_keys_node.mpr (Or.inr (Or.inl rfl))) hnk
      · have hc1 : ¬ (k < k1) := not_lt_of_lt hc
        have hc2 : ¬ (k = k1) := ne_of_gt hc
        constructor
        · rintro (hm | hm | hm)
          · rcases hi1.mp hm with hm | ⟨_, hm⟩
            · exact absurd (hml hm) hc1
            · exact absurd ((hmf.mp hm).2) hc1
          · exact Or.inl (mem_toList_node.mpr (Or.inr (Or.inl hm)))
          · rcases hi2.mp hm with hm | ⟨hnk, hm⟩
            · exact Or.inl (mem_toList_node.mpr (Or.inr (Or.inr hm)))
            · refine Or.inr ⟨?_, (hms.mp hm).1⟩
              intro hkA
              rcases mem_keys_node.mp hkA with h | h | h
              · exact hc1 (hkl h)
              · exact hc2 h
              · exact hnk h
        · rintro (hm | ⟨hnk, hm⟩)
          · rcases mem_toList_node.mp hm with hm | hm | hm
            · exact absurd (hml hm) hc1
            · exact Or.inr (Or.inl hm)
            · exact Or.inr (Or.inr (hi2.mpr (Or.inl hm)))
          · refine Or.inr (Or.inr (hi2.mpr (Or.inr ⟨?_, hms.mpr ⟨hm, hc⟩⟩)))
            intro hkr1
            exact hnk (mem_keys_node.mpr (Or.inr (Or.inr hkr1)))
  | case4 k1 x1 q1 l1 r1 k2 x2 q2 l2 r2 hq ih1 ih2 =>
      intro ha hb k v
      obtain ⟨hal, har, hbl, hbr⟩ := bst_node_parts hb
      have hi1 := ih1 (split_bst k2 ha).1 hbl k v
      have hi2 := ih2 (split_bst k2 ha).2 hbr k v
      have hmf := mem_split_fst (t := node k1 x1 q1 l1 r1) k2 ha (k := k) (v := v)
      have hms := mem_split_snd (t := node k1 x1 q1 l1 r1) k2 ha (k := k) (v := v)
      have hkf := mem_keys_split_fst (t := node k1 x1 q1 l1 r1) k2 ha (j := k)
      have hks := mem_keys_split_snd (t := node k1 x1 q1 l1 r1) k2 ha (j := k)
      have hml : (k, v) ∈ toList l2 → k < k2 := mem_toList_lt hal
      have hmr : (k, v) ∈ toList r2 → k2 < k := mem_toList_gt har
      rw [union_eq_ge hq, mem_toList_node]
      rcases lt_trichotomy k k2 with hc | hc | hc
      · have hc1 : ¬ (k2 < k) := not_lt_of_lt hc
        have hc2 : ¬ (k = k2) := ne_of_lt hc
        constructor
        · rintro (hm | hm | hm)
          · rcases hi1.mp hm with hm | ⟨hnk, hm⟩
            · exact Or.inl (hmf.mp hm).1
            · refine Or.inr ⟨?_, mem_toList_node.mpr (Or.inl hm)⟩
              intro hkA
              exact hnk (hkf.mpr ⟨hkA, hc⟩)
          · exact absurd (congrArg Prod.fst hm) hc2
          · rcases hi2.mp hm with hm | ⟨_, hm⟩
            · exact absurd ((hms.mp hm).2) hc1
            · exact absurd (hmr hm) hc1
        · rintro (hm | ⟨hnk, hm⟩)
          · exact Or.inl (hi1.mpr (Or.inl (hmf.mpr ⟨hm, hc⟩)))
          · rcases mem_toList_node.mp hm with hm | hm | hm
            · refine Or.inl (hi1.mpr (Or.inr ⟨?_, hm⟩))
              intro hkS1
              exact hnk (hkf.mp hkS1).1
            · exact absurd (congrArg Prod.fst hm) hc2
            · exact absurd (hmr hm) hc1
      · subst hc
        have hu1 : ¬ ((k, v) ∈
            toList (union_helper (split (node k1 x1 q1 l1 r1) k).1 l2)) := by
          intro hm
          rcases hi1.mp hm with hm | ⟨_, hm⟩
          · exact absurd ((hmf.mp hm).2) (lt_irrefl _)
          · exact absurd (hml hm) (lt_irrefl _)
        have hu2 : ¬ ((k, v) ∈
            toList (union_helper (split (node k1 x1 q1 l1 r1) k).2.1 r2)) := by
          intro hm
          rcases hi2.mp hm with hm | ⟨_, hm⟩
          · exact absurd ((hms.mp hm).2) (lt_irrefl _)
          · exact absurd (hmr hm) (lt_irrefl _)
        cases hE : (split (node k1 x1 q1 l1 r1) k).2.2 with
        | nil =>
            have hnkA : k ∉ keys (node k1 x1 q1 l1 r1) :=
              (split_matched_nil_iff k ha).mp hE
            simp only [vOf]
            constructor
            · rintro (hm | hm | hm)
              · exact absurd hm hu1
              · exact Or.inr ⟨hnkA, mem_toList_node.mpr (Or.inr (Or.inl hm))⟩
              · exact absurd hm hu2
            · rintro (hm | ⟨hnk, hm⟩)
              · exact absurd (mem_keys_of_mem_toList hm) hnkA
              · rcases mem_toList_node.mp hm with hm | hm | hm
                · exact absurd (hml hm) (lt_irrefl _)
                · exact Or.inr (Or.inl hm)
                · exact absurd (hmr hm) (lt_irrefl _)
        | node m mv mq ml mr =>
            have hme := split_matched_entry k ha (m, mv) (by rw [hE]; rfl)
            have hmv : (m, mv) ∈ toList (node k1 x1 q1 l1 r1) := hme.2
            have hmk : m = k := hme.1
            subst hmk
            have hkA : m ∈ keys (node k1 x1 q1 l1 r1) := mem_keys_of_mem_toList hmv
            simp only [vOf]
            constructor
            · rintro (hm | hm | hm)
              · exact absurd hm hu1
              · have hv : v = mv := congrArg Prod.snd hm
                exact Or.inl (hv ▸ hmv)
              · exact absurd hm hu2
            · rintro (hm | ⟨hnk, hm⟩)
              · have hv : v = mv := pairwise_key_eq (bst_pairwise ha) hm hmv
                exact Or.inr (Or.inl (by rw [hv]))
              · exact absurd hkA hnk
      · have hc1 : ¬ (k < k2) := not_lt_of_lt hc
        have hc2 : ¬ (k = k2) := ne_of_gt hc
        constructor
        · rintro (hm | hm | hm)
          · rcases hi1.mp hm with hm | ⟨_, hm⟩
            · exact absurd ((hmf.mp hm).2) hc1
            · exact absurd (hml hm) hc1
          · exact absurd (congrArg Prod.fst hm) hc2
          · rcases hi2.mp hm with hm | ⟨hnk, hm⟩
            · exact Or.inl (hms.mp hm).1
            · refine Or.inr ⟨?_, mem_toList_node.mpr (Or.inr (Or.inr hm))⟩
              intro hkA
              exact hnk (hks.mpr ⟨hkA, hc⟩)
        · rintro (hm | ⟨hnk, hm⟩)
          · exact Or.inr (Or.inr (hi2.mpr (Or.inl (hms.mpr ⟨hm, hc⟩))))
          · rcases mem_toList_node.mp hm with hm | hm | hm
            · exact absurd (hml hm) hc1
            · exact absurd (congrArg Prod.fst hm) hc2
            · refine Or.inr (Or.inr (hi2.mpr (Or.inr ⟨?_, hm⟩)))
              intro hkS2
              exact hnk (hks.mp hkS2).1

theorem toList_node_eq (k : K) (x : V) (q : Int) (l r : Treap K V) :
    toList (node k x q l r) = toList l ++ (k, x) :: toList r := rfl

theorem difference_nil_left (v2 : Treap K V) : difference_helper nil v2 = nil := by
  rw [difference_helper]

theorem difference_nil_right (v1 : Treap K V) : difference_helper v1 nil = v1 := by
  cases v1 with
  | nil => rw [difference_helper]
  | node k x q l r =>
      rw [difference_helper]
      simp

theorem difference_eq_none {k1 k2 : K} {x1 x2 : V} {q1 q2 : Int} {l1 r1 l2 r2 : Treap K V}
    (hE : (split (node k2 x2 q2 l2 r2) k1).2.2 = nil) :
    difference_helper (node k1 x1 q1 l1 r1) (node k2 x2 q2 l2 r2) =
      node k1 x1 q1
        (difference_helper l1 (split (node k2 x2 q2 l2 r2) k1).1)
        (difference_helper r1 (split (node k2 x2 q2 l2 r2) k1).2.1) := by
  rw [difference_helper, hE]

theorem difference_eq_some {k1 k2 : K} {x1 x2 : V} {q1 q2 : Int} {l1 r1 l2 r2 : Treap K V}
    {m : K} {mv : V} {mq : Int} {ml mr : Treap K V}
    (hE : (split (node k2 x2 q2 l2 r2) k1).2.2 = node m mv mq ml mr) :
    difference_helper (node k1 x1 q1 l1 r1) (node k2 x2 q2 l2 r2) =
      join (difference_helper l1 (split (node k2 x2 q2 l2 r2) k1).1)
        (difference_helper r1 (split (node k2 x2 q2 l2 r2) k1).2.1) := by
  rw [difference_helper, hE]

theorem allKeys_difference {f : K → Bool} {a b : Treap K V}
    (ha : allKeys f a = true) : allKeys f (difference_helper a b) = true := by
  induction a, b using difference_helper.induct with
  | case1 v2 => simp [difference_nil_left, allKeys]
  | case2 v1 h => simpa [difference_nil_right] using ha
  | case3 k1 x1 q1 l1 r1 k2 x2 q2 l2 r2 hE ih1 ih2 =>
      simp only [allKeys, Bool.and_eq_true] at ha
      obtain ⟨⟨hf, hl⟩, hr⟩ := ha
      rw [difference_eq_none hE]
      simp only [allKeys, Bool.and_eq_true]
      exact ⟨⟨hf, ih1 hl⟩, ih2 hr⟩
  | case4 k1 x1 q1 l1 r1 k2 x2 q2 l2 r2 m mv mq ml mr hE ih1 ih2 =>
      simp only [allKeys, Bool.and_eq_true] at ha
      obtain ⟨⟨hf, hl⟩, hr⟩ := ha
      rw [difference_eq_some hE]
      exact allKeys_join.mpr ⟨ih1 hl, ih2 hr⟩

theorem allP_difference {f : Int → Bool} {a b : Treap K V}
    (ha : allP f a = true) : allP f (difference_helper a b) = true := by
  induction a, b using difference_helper.induct with
  | case1 v2 => simp [difference_nil_left, allP]
  | case2 v1 h => simpa [difference_nil_right] using ha
  | case3 k1 x1 q1 l1 r1 k2 x2 q2 l2 r2 hE ih1 ih2 =>
      simp only [allP, Bool.and_eq_true] at ha
      obtain ⟨⟨hf, hl⟩, hr⟩ := ha
      rw [difference_eq_none hE]
      simp only [allP, Bool.and_eq_true]
      exact ⟨⟨hf, ih1 hl⟩, ih2 hr⟩
  | case4 k1 x1 q1 l1 r1 k2 x2 q2 l2 r2 m mv mq ml mr hE ih1 ih2 =>
      simp only [allP, Bool.and_eq_true] at ha
      obtain ⟨⟨hf, hl⟩, hr⟩ := ha
      rw [difference_eq_some hE]
      exact allP_join.mpr ⟨ih1 hl, ih2 hr⟩

theorem bst_difference {a b : Treap K V} (ha : bst a = true) :
    bst (difference_helper a b) = true := by
  induction a, b using difference_helper.induct with
  | case1 v2 => simp [difference_nil_left, bst]
  | case2 v1 h => simpa [difference_nil_right] using ha
  | case3 k1 x1 q1 l1 r1 k2 x2 q2 l2 r2 hE ih1 ih2 =>
      obtain ⟨hal, har, hbl, hbr⟩ := bst_node_parts ha
      rw [difference_eq_none hE]
      exact bst_node_intro (allKeys_difference hal) (allKeys_difference har)
        (ih1 hbl) (ih2 hbr)
  | case4 k1 x1 q1 l1 r1 k2 x2 q2 l2 r2 m mv mq ml mr hE ih1 ih2 =>
      obtain ⟨hal, har, hbl, hbr⟩ := bst_node_parts ha
      rw [difference_eq_some hE]
      refine bst_join (ih1 hbl) (ih2 hbr) ?_
      intro j hj j2 hj2
      have h1 : j < k1 := mem_keys_lt (allKeys_difference hal) hj
      have h2 : k1 < j2 := mem_keys_gt (allKeys_difference har) hj2
      exact lt_trans h1 h2

theorem heap_difference {a b : Treap K V} (ha : heap a = true) :
    heap (difference_helper a b) = true := by
  induction a, b using difference_helper.induct with
  | case1 v2 => simp [difference_nil_left, heap]
  | case2 v1 h => simpa [difference_nil_right] using ha
  | case3 k1 x1 q1 l1 r1 k2 x2 q2 l2 r2 hE ih1 ih2 =>
      obtain ⟨hp1, hp2, hhl, hhr⟩ := heap_node_parts ha
      rw [difference_eq_none hE]
      refine heap_node_intro ?_ ?_ (ih1 hhl) (ih2 hhr)
      · exact pLe_of_allP (allP_difference (allP_of_heap_pLe hhl hp1))
      · exact pLe_of_allP (allP_difference (allP_of_heap_pLe hhr hp2))
  | case4 k1 x1 q1 l1 r1 k2 x2 q2 l2 r2 m mv mq ml mr hE ih1 ih2 =>
      obtain ⟨hp1, hp2, hhl, hhr⟩ := heap_node_parts ha
      rw [difference_eq_some hE]
      exact heap_join (ih1 hhl) (ih2 hhr)

theorem difference_toList {a b : Treap K V} :
    bst a = true → bst b = true →
    toList (difference_helper a b) =
      (toList a).filter (fun e => decide (e.1 ∉ keys b)) := by
  induction a, b using difference_helper.induct with
  | case1 v2 =>
      intro _ _
      simp [difference_nil_left, toList]
  | case2 v1 h =>
      intro _ _
      rw [difference_nil_right]
      symm
      apply List.filter_eq_self.mpr
      intro e _
      simp [keys, toList]
  | case3 k1 x1 q1 l1 r1 k2 x2 q2 l2 r2 hE ih1 ih2 =>
      intro ha hb
      obtain ⟨hal, har, hbl, hbr⟩ := bst_node_parts ha
      have hd1 := ih1 hbl (split_bst k1 hb).1
      have hd2 := ih2 hbr (split_bst k1 hb).2
      have hf1 : (toList l1).filter
            (fun e => decide (e.1 ∉ keys (split (node k2 x2 q2 l2 r2) k1).1)) =
          (toList l1).filter (fun e => decide (e.1 ∉ keys (node k2 x2 q2 l2 r2))) := by
        apply List.filter_congr
        intro e he
        have hlt : e.1 < k1 := by
          have := (allKeys_iff _ _).mp hal e he
          simpa using this
        simp only [decide_eq_decide]
        rw [mem_keys_split_fst k1 hb]
        constructor
        · intro h hc
          exact h ⟨hc, hlt⟩
        · intro h hc
          exact h hc.1
      have hf2 : (toList r1).filter
            (fun e => decide (e.1 ∉ keys (split (node k2 x2 q2 l2 r2) k1).2.1)) =
          (toList r1).filter (fun e => decide (e.1 ∉ keys (node k2 x2 q2 l2 r2))) := by
        apply List.filter_congr
        intro e he
        have hgt : k1 < e.1 := by
          have := (allKeys_iff _ _).mp har e he
          simpa using this
        simp only [decide_eq_decide]
        rw [mem_keys_split_snd k1 hb]
        constructor
        · intro h hc
          exact h ⟨hc, hgt⟩
        · intro h hc
          exact h hc.1
      have hna : k1 ∉ keys (node k2 x2 q2 l2 r2) := (split_matched_nil_iff k1 hb).mp hE
      rw [difference_eq_none hE, toList_node_eq, toList_node_eq, List.filter_append,
        List.filter_cons]
      simp only [hna, decide_not, not_false_eq_true, decide_True, if_true]
      rw [hd1, hd2, hf1, hf2]
      simp [hna]
  | case4 k1 x1 q1 l1 r1 k2 x2 q2 l2 r2 m mv mq ml mr hE ih1 ih2 =>
      intro ha hb
      obtain ⟨hal, har, hbl, hbr⟩ := bst_node_parts ha
      have hd1 := ih1 hbl (split_bst k1 hb).1
      have hd2 := ih2 hbr (split_bst k1 hb).2
      have hf1 : (toList l1).filter
            (fun e => decide (e.1 ∉ keys (split (node k2 x2 q2 l2 r2) k1).1)) =
          (toList l1).filter (fun e => decide (e.1 ∉ keys (node k2 x2 q2 l2 r2))) := by
        apply List.filter_congr
        intro e he
        have hlt : e.1 < k1 := by
          have := (allKeys_iff _ _).mp hal e he
          simpa using this
        simp only [decide_eq_decide]
        rw [mem_keys_split_fst k1 hb]
        constructor
        · intro h hc
          exact h ⟨hc, hlt⟩
        · intro h hc
          exact h hc.1
      have hf2 : (toList r1).filter
            (fun e => decide (e.1 ∉ keys (split (node k2 x2 q2 l2 r2) k1).2.1)) =
          (toList r1).filter (fun e => decide (e.1 ∉ keys (node k2 x2 q2 l2 r2))) := by
        apply List.filter_congr
        intro e he
        have hgt : k1 < e.1 := by
          have := (allKeys_iff _ _).mp har e he
          simpa using this
        simp only [decide_eq_decide]
        rw [mem_keys_split_snd k1 hb]
        constructor
        · intro h hc
          exact h ⟨hc, hgt⟩
        · intro h hc
          exact h hc.1
      have hka : k1 ∈ keys (node k2 x2 q2 l2 r2) := by
        by_contra hc
        rw [← split_matched_nil_iff k1 hb] at hc
        rw [hE] at hc
        cases hc
      rw [difference_eq_some hE, toList_join, toList_node_eq, List.filter_append,
        List.filter_cons]
      simp only [hka, decide_not, decide_True, Bool.not_true, Bool.false_eq_true, if_false]
      rw [hd1, hd2, hf1, hf2]
      simp [decide_not]

theorem filter_split_decomp {l : List (K × V)}
    (h : l.Pairwise (fun e1 e2 => e1.1 < e2.1)) (k : K) (P : K × V → Bool) :
    l.filter P = (l.filter (fun e => decide (e.1 < k))).filter P ++
      (l.filter (fun e => decide (e.1 = k))).filter P ++
      (l.filter (fun e => decide (k < e.1))).filter P := by
  conv_lhs => rw [sorted_decomp h k]
  rw [List.filter_append, List.filter_append]

theorem intersect_nil_left (v2 : Treap K V) : intersect_helper nil v2 = nil := by
  rw [intersect_helper]

theorem intersect_nil_right (v1 : Treap K V) : intersect_helper v1 nil = nil := by
  cases v1 with
  | nil => rw [intersect_helper]
  | node k x q l r =>
      rw [intersect_helper]
      simp

theorem intersect_eq_lt_none {k1 k2 : K} {x1 x2 : V} {q1 q2 : Int} {l1 r1 l2 r2 : Treap K V}
    (hq : q1 < q2) (hE : (split (node k2 x2 q2 l2 r2) k1).2.2 = nil) :
    intersect_helper (node k1 x1 q1 l1 r1) (node k2 x2 q2 l2 r2) =
      join (intersect_helper l1 (split (node k2 x2 q2 l2 r2) k1).1)
        (intersect_helper r1 (split (node k2 x2 q2 l2 r2) k1).2.1) := by
  rw [intersect_helper, hE]
  simp [hq]

theorem intersect_eq_lt_some {k1 k2 : K} {x1 x2 : V} {q1 q2 : Int} {l1 r1 l2 r2 : Treap K V}
    {m : K} {mv : V} {mq : Int} {ml mr : Treap K V}
    (hq : q1 < q2) (hE : (split (node k2 x2 q2 l2 r2) k1).2.2 = node m mv mq ml mr) :
    intersect_helper (node k1 x1 q1 l1 r1) (node k2 x2 q2 l2 r2) =
      node k1 x1 q1
        (intersect_helper l1 (split (node k2 x2 q2 l2 r2) k1).1)
        (intersect_helper r1 (split (node k2 x2 q2 l2 r2) k1).2.1) := by
  rw [intersect_helper, hE]
  simp [hq]

theorem intersect_eq_ge_none {k1 k2 : K} {x1 x2 : V} {q1 q2 : Int} {l1 r1 l2 r2 : Treap K V}
    (hq : ¬ q1 < q2) (hE : (split (node k1 x1 q1 l1 r1) k2).2.2 = nil) :
    intersect_helper (node k1 x1 q1 l1 r1) (node k2 x2 q2 l2 r2) =
      join (intersect_helper (split (node k1 x1 q1 l1 r1) k2).1 l2)
        (intersect_helper (split (node k1 x1 q1 l1 r1) k2).2.1 r2) := by
  rw [intersect_helper, hE]
  simp [hq]

theorem intersect_eq_ge_some {k1 k2 : K} {x1 x2 : V} {q1 q2 : Int} {l1 r1 l2 r2 : Treap K V}
    {m : K} {mv : V} {mq : Int} {ml mr : Treap K V}
    (hq : ¬ q1 < q2) (hE : (split (node k1 x1 q1 l1 r1) k2).2.2 = node m mv mq ml mr) :
    intersect_helper (node k1 x1 q1 l1 r1) (node k2 x2 q2 l2 r2) =
      node k2 mv q2
        (intersect_helper (split (node k1 x1 q1 l1 r1) k2).1 l2)
        (intersect_helper (split (node k1 x1 q1 l1 r1) k2).2.1 r2) := by
  rw [intersect_helper, hE]
  simp [hq]

theorem allKeys_intersect {f : K → Bool} {a b : Treap K V} :
    allKeys f a = true → allKeys f b = true → allKeys f (intersect_helper a b) = true := by
  induction a, b using intersect_helper.induct with
  | case1 v2 => intro _ _; simp [intersect_nil_left, allKeys]
  | case2 v1 h => intro _ _; simp [intersect_nil_right, allKeys]
  | case3 k1 x1 q1 l1 r1 k2 x2 q2 l2 r2 hq hE ih1 ih2 =>
      intro ha hb
      simp only [allKeys, Bool.and_eq_true] at ha
      obtain ⟨⟨hf, hl⟩, hr⟩ := ha
      rw [intersect_eq_lt_none hq hE]
      exact allKeys_join.mpr ⟨ih1 hl (split_allKeys k1 hb).1, ih2 hr (split_allKeys k1 hb).2⟩
  | case4 k1 x1 q1 l1 r1 k2 x2 q2 l2 r2 hq m mv mq ml mr hE ih1 ih2 =>
      intro ha hb
      simp only [allKeys, Bool.and_eq_true] at ha
      obtain ⟨⟨hf, hl⟩, hr⟩ := ha
      rw [intersect_eq_lt_some hq hE]
      simp only [allKeys, Bool.and_eq_true]
      exact ⟨⟨hf, ih1 hl (split_allKeys k1 hb).1⟩, ih2 hr (split_allKeys k1 hb).2⟩
  | case5 k1 x1 q1 l1 r1 k2 x2 q2 l2 r2 hq hE ih1 ih2 =>
      intro ha hb
      simp only [allKeys, Bool.and_eq_true] at hb
      obtain ⟨⟨hf, hl⟩, hr⟩ := hb
      rw [intersect_eq_ge_none hq hE]
      exact allKeys_join.mpr ⟨ih1 (split_allKeys k2 ha).1 hl, ih2 (split_allKeys k2 ha).2 hr⟩
  | case6 k1 x1 q1 l1 r1 k2 x2 q2 l2 r2 hq m mv mq ml mr hE ih1 ih2 =>
      intro ha hb
      simp only [allKeys, Bool.and_eq_true] at hb
      obtain ⟨⟨hf, hl⟩, hr⟩ := hb
      rw [intersect_eq_ge_some hq hE]
      simp only [allKeys, Bool.and_eq_true]
      exact ⟨⟨hf, ih1 (split_allKeys k2 ha).1 hl⟩, ih2 (split_allKeys k2 ha).2 hr⟩

theorem allP_intersect {f : Int → Bool} {a b : Treap K V} :
    allP f a = true → allP f b = true → allP f (intersect_helper a b) = true := by
  induction a, b using intersect_helper.induct with
  | case1 v2 => intro _ _; simp [intersect_nil_left, allP]
  | case2 v1 h => intro _ _; simp [intersect_nil_right, allP]
  | case3 k1 x1 q1 l1 r1 k2 x2 q2 l2 r2 hq hE ih1 ih2 =>
      intro ha hb
      simp only [allP, Bool.and_eq_true] at ha
      obtain ⟨⟨hf, hl⟩, hr⟩ := ha
      rw [intersect_eq_lt_none hq hE]
      exact allP_join.mpr ⟨ih1 hl (split_allP k1 hb).1, ih2 hr (split_allP k1 hb).2⟩
  | case4 k1 x1 q1 l1 r1 k2 x2 q2 l2 r2 hq m mv mq ml mr hE ih1 ih2 =>
      intro ha hb
      simp only [allP, Bool.and_eq_true] at ha
      obtain ⟨⟨hf, hl⟩, hr⟩ := ha
      rw [intersect_eq_lt_some hq hE]
      simp only [allP, Bool.and_eq_true]
      exact ⟨⟨hf, ih1 hl (split_allP k1 hb).1⟩, ih2 hr (split_allP k1 hb).2⟩
  | case5 k1 x1 q1 l1 r1 k2 x2 q2 l2 r2 hq hE ih1 ih2 =>
      intro ha hb
      simp only [allP, Bool.and_eq_true] at hb
      obtain ⟨⟨hf, hl⟩, hr⟩ := hb
      rw [intersect_eq_ge_none hq hE]
      exact allP_join.mpr ⟨ih1 (split_allP k2 ha).1 hl, ih2 (split_allP k2 ha).2 hr⟩
  | case6 k1 x1 q1 l1 r1 k2 x2 q2 l2 r2 hq m mv mq ml mr hE ih1 ih2 =>
      intro ha hb
      simp only [allP, Bool.and_eq_true] at hb
      obtain ⟨⟨hf, hl⟩, hr⟩ := hb
      rw [intersect_eq_ge_some hq hE]
      simp only [allP, Bool.and_eq_true]
      exact ⟨⟨hf, ih1 (split_allP k2 ha).1 hl⟩, ih2 (split_allP k2 ha).2 hr⟩

theorem bst_intersect {a b : Treap K V} :
    bst a = true → bst b = true → bst (intersect_helper a b) = true := by
  induction a, b using intersect_helper.induct with
  | case1 v2 => intro _ _; simp [intersect_nil_left, bst]
  | case2 v1 h => intro _ _; simp [intersect_nil_right, bst]
  | case3 k1 x1 q1 l1 r1 k2 x2 q2 l2 r2 hq hE ih1 ih2 =>
      intro ha hb
      obtain ⟨hal, har, hbl, hbr⟩ := bst_node_parts ha
      rw [intersect_eq_lt_none hq hE]
      refine bst_join (ih1 hbl (split_bst k1 hb).1) (ih2 hbr (split_bst k1 hb).2) ?_
      intro j hj j2 hj2
      have h1 : j < k1 := mem_keys_lt (allKeys_intersect hal (split_allKeys_lt k1 hb)) hj
      have h2 : k1 < j2 := mem_keys_gt (allKeys_intersect har (split_allKeys_gt k1 hb)) hj2
      exact lt_trans h1 h2
  | case4 k1 x1 q1 l1 r1 k2 x2 q2 l2 r2 hq m mv mq ml mr hE ih1 ih2 =>
      intro ha hb
      obtain ⟨hal, har, hbl, hbr⟩ := bst_node_parts ha
      rw [intersect_eq_lt_some hq hE]
      exact bst_node_intro (allKeys_intersect hal (split_allKeys_lt k1 hb))
        (allKeys_intersect har (split_allKeys_gt k1 hb))
        (ih1 hbl (split_bst k1 hb).1) (ih2 hbr (split_bst k1 hb).2)
  | case5 k1 x1 q1 l1 r1 k2 x2 q2 l2 r2 hq hE ih1 ih2 =>
      intro ha hb
      obtain ⟨hal, har, hbl, hbr⟩ := bst_node_parts hb
      rw [intersect_eq_ge_none hq hE]
      refine bst_join (ih1 (split_bst k2 ha).1 hbl) (ih2 (split_bst k2 ha).2 hbr) ?_
      intro j hj j2 hj2
      have h1 : j < k2 := mem_keys_lt (allKeys_intersect (split_allKeys_lt k2 ha) hal) hj
      have h2 : k2 < j2 := mem_keys_gt (allKeys_intersect (split_allKeys_gt k2 ha) har) hj2
      exact lt_trans h1 h2
  | case6 k1 x1 q1 l1 r1 k2 x2 q2 l2 r2 hq m mv mq ml mr hE ih1 ih2 =>
      intro ha hb
      obtain ⟨hal, har, hbl, hbr⟩ := bst_node_parts hb
      rw [intersect_eq_ge_some hq hE]
      exact bst_node_intro (allKeys_intersect (split_allKeys_lt k2 ha) hal)
        (allKeys_intersect (split_allKeys_gt k2 ha) har)
        (ih1 (split_bst k2 ha).1 hbl) (ih2 (split_bst k2 ha).2 hbr)

theorem heap_intersect {a b : Treap K V} :
    heap a = true → heap b = true → heap (intersect_helper a b) = true := by
  induction a, b using intersect_helper.induct with
  | case1 v2 => intro _ _; simp [intersect_nil_left, heap]
  | case2 v1 h => intro _ _; simp [intersect_nil_right, heap]
  | case3 k1 x1 q1 l1 r1 k2 x2 q2 l2 r2 hq hE ih1 ih2 =>
      intro ha hb
      obtain ⟨hp1, hp2, hhl, hhr⟩ := heap_node_parts ha
      rw [intersect_eq_lt_none hq hE]
      exact heap_join (ih1 hhl (split_heap k1 hb).1) (ih2 hhr (split_heap k1 hb).2)
  | case4 k1 x1 q1 l1 r1 k2 x2 q2 l2 r2 hq m mv mq ml mr hE ih1 ih2 =>
      intro ha hb
      obtain ⟨hp1, hp2, hhl, hhr⟩ := heap_node_parts ha
      have hb1 : allP (fun z => decide (q1 ≤ z)) (node k2 x2 q2 l2 r2) = true :=
        allP_mono (fun z hz => by
            simp only [decide_eq_true_eq] at hz ⊢
            exact le_trans (le_of_lt hq) hz)
          (allP_root_of_heap hb)
      rw [intersect_eq_lt_some hq hE]
      refine heap_node_intro ?_ ?_ (ih1 hhl (split_heap k1 hb).1) (ih2 hhr (split_heap k1 hb).2)
      · exact pLe_of_allP (allP_intersect (allP_of_heap_pLe hhl hp1) (split_allP k1 hb1).1)
      · exact pLe_of_allP (allP_intersect (allP_of_heap_pLe hhr hp2) (split_allP k1 hb1).2)
  | case5 k1 x1 q1 l1 r1 k2 x2 q2 l2 r2 hq hE ih1 ih2 =>
      intro ha hb
      obtain ⟨hp1, hp2, hhl, hhr⟩ := heap_node_parts hb
      rw [intersect_eq_ge_none hq hE]
      exact heap_join (ih1 (split_heap k2 ha).1 hhl) (ih2 (split_heap k2 ha).2 hhr)
  | case6 k1 x1 q1 l1 r1 k2 x2 q2 l2 r2 hq m mv mq ml mr hE ih1 ih2 =>
      intro ha hb
      obtain ⟨hp1, hp2, hhl, hhr⟩ := heap_node_parts hb
      have ha1 : allP (fun z => decide (q2 ≤ z)) (node k1 x1 q1 l1 r1) = true :=
        allP_mono (fun z hz => by
            simp only [decide_eq_true_eq] at hz ⊢
            exact le_trans (not_lt.mp hq) hz)
          (allP_root_of_heap ha)
      rw [intersect_eq_ge_some hq hE]
      refine heap_node_intro ?_ ?_ (ih1 (split_heap k2 ha).1 hhl) (ih2 (split_heap k2 ha).2 hhr)
      · exact pLe_of_allP (allP_intersect (split_allP k2 ha1).1 (allP_of_heap_pLe hhl hp1))
      · exact pLe_of_allP (allP_intersect (split_allP k2 ha1).2 (allP_of_heap_pLe hhr hp2))

theorem intersect_toList {a b : Treap K V} :
    bst a = true → bst b = true →
    toList (intersect_helper a b) =
      (toList a).filter (fun e => decide (e.1 ∈ keys b)) := by
  induction a, b using intersect_helper.induct with
  | case1 v2 =>
      intro _ _
      simp [intersect_nil_left, toList]
  | case2 v1 h =>
      intro _ _
      rw [intersect_nil_right]
      symm
      apply List.filter_eq_nil_iff.mpr
      intro e _
      simp [keys, toList]
  | case3 k1 x1 q1 l1 r1 k2 x2 q2 l2 r2 hq hE ih1 ih2 =>
      intro ha hb
      obtain ⟨hal, har, hbl, hbr⟩ := bst_node_parts ha
      have hd1 := ih1 hbl (split_bst k1 hb).1
      have hd2 := ih2 hbr (split_bst k1 hb).2
      have hf1 : (toList l1).filter
            (fun e => decide (e.1 ∈ keys (split (node k2 x2 q2 l2 r2) k1).1)) =
          (toList l1).filter (fun e => decide (e.1 ∈ keys (node k2 x2 q2 l2 r2))) := by
        apply List.filter_congr
        intro e he
        have hlt : e.1 < k1 := by
          have := (allKeys_iff _ _).mp hal e he
          simpa using this
        simp only [decide_eq_decide]
        rw [mem_keys_split_fst k1 hb]
        constructor
        · intro h
          exact h.1
        · intro h
          exact ⟨h, hlt⟩
      have hf2 : (toList r1).filter
            (fun e => decide (e.1 ∈ keys (split (node k2 x2 q2 l2 r2) k1).2.1)) =
          (toList r1).filter (fun e => decide (e.1 ∈ keys (node k2 x2 q2 l2 r2))) := by
        apply List.filter_congr
        intro e he
        have hgt : k1 < e.1 := by
          have := (allKeys_iff _ _).mp har e he
          simpa using this
        simp only [decide_eq_decide]
        rw [mem_keys_split_snd k1 hb]
        constructor
        · intro h
          exact h.1
        · intro h
          exact ⟨h, hgt⟩
      have hna : k1 ∉ keys (node k2 x2 q2 l2 r2) := (split_matched_nil_iff k1 hb).mp hE
      rw [intersect_eq_lt_none hq hE, toList_join, toList_node_eq, List.filter_append,
        List.filter_cons, hd1, hd2, hf1, hf2]
      simp [hna]
  | case4 k1 x1 q1 l1 r1 k2 x2 q2 l2 r2 hq m mv mq ml mr hE ih1 ih2 =>
      intro ha hb
      obtain ⟨hal, har, hbl, hbr⟩ := bst_node_parts ha
      have hd1 := ih1 hbl (split_bst k1 hb).1
      have hd2 := ih2 hbr (split_bst k1 hb).2
      have hf1 : (toList l1).filter
            (fun e => decide (e.1 ∈ keys (split (node k2 x2 q2 l2 r2) k1).1)) =
          (toList l1).filter (fun e => decide (e.1 ∈ keys (node k2 x2 q2 l2 r2))) := by
        apply List.filter_congr
        intro e he
        have hlt : e.1 < k1 := by
          have := (allKeys_iff _ _).mp hal e he
          simpa using this
        simp only [decide_eq_decide]
        rw [mem_keys_split_fst k1 hb]
        constructor
        · intro h
          exact h.1
        · intro h
          exact ⟨h, hlt⟩
      have hf2 : (toList r1).filter
            (fun e => decide (e.1 ∈ keys (split (node k2 x2 q2 l2 r2) k1).2.1)) =
          (toList r1).filter (fun e => decide (e.1 ∈ keys (node k2 x2 q2 l2 r2))) := by
        apply List.filter_congr
        intro e he
        have hgt : k1 < e.1 := by
          have := (allKeys_iff _ _).mp har e he
          simpa using this
        simp only [decide_eq_decide]
        rw [mem_keys_split_snd k1 hb]
        constructor
        · intro h
          exact h.1
        · intro h
          exact ⟨h, hgt⟩
      have hka : k1 ∈ keys (node k2 x2 q2 l2 r2) := by
        by_contra hc
        rw [← split_matched_nil_iff k1 hb] at hc
        rw [hE] at hc
        cases hc
      rw [intersect_eq_lt_some hq hE, toList_node_eq, toList_node_eq, List.filter_append,
        List.filter_cons, hd1, hd2, hf1, hf2]
      simp [hka]
  | case5 k1 x1 q1 l1 r1 k2 x2 q2 l2 r2 hq hE ih1 ih2 =>
      intro ha hb
      obtain ⟨hal2, har2, hbl2, hbr2⟩ := bst_node_parts hb
      have hd1 := ih1 (split_bst k2 ha).1 hbl2
      have hd2 := ih2 (split_bst k2 ha).2 hbr2
      have hnk : k2 ∉ keys (node k1 x1 q1 l1 r1) := (split_matched_nil_iff k2 ha).mp hE
      have hpw := bst_pairwise ha
      have hmid : (toList (node k1 x1 q1 l1 r1)).filter (fun e => decide (e.1 = k2)) = [] := by
        apply List.filter_eq_nil_iff.mpr
        intro e he
        simp only [decide_eq_true_eq]
        intro hc
        exact hnk (hc ▸ mem_keys_of_mem_toList he)
      have hc1 : ((toList (node k1 x1 q1 l1 r1)).filter (fun e => decide (e.1 < k2))).filter
            (fun e => decide (e.1 ∈ keys (node k2 x2 q2 l2 r2))) =
          ((toList (node k1 x1 q1 l1 r1)).filter (fun e => decide (e.1 < k2))).filter
            (fun e => decide (e.1 ∈ keys l2)) := by
        apply List.filter_congr
        intro e he
        have hlt : e.1 < k2 := by
          have := (List.mem_filter.mp he).2
          simpa using this
        simp only [decide_eq_decide]
        rw [mem_keys_node]
        constructor
        · rintro (h | h | h)
          · exact h
          · exact absurd h (ne_of_lt hlt)
          · exact absurd (mem_keys_gt har2 h) (not_lt_of_lt hlt)
        · intro h
          exact Or.inl h
      have hc3 : ((toList (node k1 x1 q1 l1 r1)).filter (fun e => decide (k2 < e.1))).filter
            (fun e => decide (e.1 ∈ keys (node k2 x2 q2 l2 r2))) =
          ((toList (node k1 x1 q1 l1 r1)).filter (fun e => decide (k2 < e.1))).filter
            (fun e => decide (e.1 ∈ keys r2)) := by
        apply List.filter_congr
        intro e he
        have hgt : k2 < e.1 := by
          have := (List.mem_filter.mp he).2
          simpa using this
        simp only [decide_eq_decide]
        rw [mem_keys_node]
        constructor
        · rintro (h | h | h)
          · exact absurd (mem_keys_lt hal2 h) (not_lt_of_lt hgt)
          · exact absurd h (ne_of_gt hgt)
          · exact h
        · intro h
          exact Or.inr (Or.inr h)
      rw [intersect_eq_ge_none hq hE, toList_join, hd1, hd2, split_toList_fst k2 ha,
        split_toList_snd k2 ha,
        filter_split_decomp hpw k2 (fun e => decide (e.1 ∈ keys (node k2 x2 q2 l2 r2))),
        hmid, hc1, hc3]
      simp
  | case6 k1 x1 q1 l1 r1 k2 x2 q2 l2 r2 hq m mv mq ml mr hE ih1 ih2 =>
      intro ha hb
      obtain ⟨hal2, har2, hbl2, hbr2⟩ := bst_node_parts hb
      have hd1 := ih1 (split_bst k2 ha).1 hbl2
      have hd2 := ih2 (split_bst k2 ha).2 hbr2
      have hme := split_matched_entry k2 ha (m, mv) (by rw [hE]; rfl)
      have hmk : m = k2 := hme.1
      subst hmk
      have hmem : (m, mv) ∈ toList (node k1 x1 q1 l1 r1) := hme.2
      have hpw := bst_pairwise ha
      have hmid : (toList (node k1 x1 q1 l1 r1)).filter (fun e => decide (e.1 = m)) =
          [(m, mv)] := pairwise_filter_key hpw hmem
      have hkroot : m ∈ keys (node m x2 q2 l2 r2) := mem_keys_node.mpr (Or.inr (Or.inl rfl))
      have hc1 : ((toList (node k1 x1 q1 l1 r1)).filter (fun e => decide (e.1 < m))).filter
            (fun e => decide (e.1 ∈ keys (node m x2 q2 l2 r2))) =
          ((toList (node k1 x1 q1 l1 r1)).filter (fun e => decide (e.1 < m))).filter
            (fun e => decide (e.1 ∈ keys l2)) := by
        apply List.filter_congr
        intro e he
        have hlt : e.1 < m := by
          have := (List.mem_filter.mp he).2
          simpa using this
        simp only [decide_eq_decide]
        rw [mem_keys_node]
        constructor
        · rintro (h | h | h)
          · exact h
          · exact absurd h (ne_of_lt hlt)
          · exact absurd (mem_keys_gt har2 h) (not_lt_of_lt hlt)
        · intro h
          exact Or.inl h
      have hc3 : ((toList (node k1 x1 q1 l1 r1)).filter (fun e => decide (m < e.1))).filter
            (fun e => decide (e.1 ∈ keys (node m x2 q2 l2 r2))) =
          ((toList (node k1 x1 q1 l1 r1)).filter (fun e => decide (m < e.1))).filter
            (fun e => decide (e.1 ∈ keys r2)) := by
        apply List.filter_congr
        intro e he
        have hgt : m < e.1 := by
          have := (List.mem_filter.mp he).2
          simpa using this
        simp only [decide_eq_decide]
        rw [mem_keys_node]
        constructor
        · rintro (h | h | h)
          · exact absurd (mem_keys_lt hal2 h) (not_lt_of_lt hgt)
          · exact absurd h (ne_of_gt hgt)
          · exact h
        · intro h
          exact Or.inr (Or.inr h)
      rw [intersect_eq_ge_some hq hE, toList_node_eq, hd1, hd2, split_toList_fst m ha,
        split_toList_snd m ha,
        filter_split_decomp hpw m (fun e => decide (e.1 ∈ keys (node m x2 q2 l2 r2))),
        hmid, hc1, hc3]
      simp [hkroot]

theorem split_rec_mapVal (f : V → V) (t : Treap K V) (key : K) :
    split_rec (mapVal f t) key =
      (mapVal f (split_rec t key).1, mapVal f (split_rec t key).2.1,
        mapVal f (split_rec t key).2.2) := by
  induction t with
  | nil => simp [split_rec, mapVal]
  | node k x q l r ihl ihr =>
      by_cases hk : k = key
      · simp [mapVal, split_rec, hk]
      · by_cases hlt : key < k
        · simp [mapVal, split_rec, hk, hlt, ihl]
        · simp [mapVal, split_rec, hk, hlt, ihr]

theorem split_mapVal (f : V → V) (t : Treap K V) (key : K) :
    split (mapVal f t) key =
      (mapVal f (split t key).1, mapVal f (split t key).2.1,
        mapVal f (split t key).2.2) := by
  rw [split_eq_rec, split_eq_rec]
  exact split_rec_mapVal f t key

theorem difference_mapVal (f : V → V) {a b : Treap K V} :
    difference_helper a (mapVal f b) = difference_helper a b := by
  induction a, b using difference_helper.induct with
  | case1 v2 => rw [difference_nil_left, difference_nil_left]
  | case2 v1 h =>
      simp only [mapVal]
  | case3 k1 x1 q1 l1 r1 k2 x2 q2 l2 r2 hE ih1 ih2 =>
      have hsp := split_mapVal f (node k2 x2 q2 l2 r2) k1
      have hE2 : (split (node k2 (f x2) q2 (mapVal f l2) (mapVal f r2)) k1).2.2 = nil := by
        have h22 : (split (mapVal f (node k2 x2 q2 l2 r2)) k1).2.2 =
            mapVal f (split (node k2 x2 q2 l2 r2) k1).2.2 := by rw [hsp]
        simpa [mapVal, hE] using h22
      have h1 : (split (node k2 (f x2) q2 (mapVal f l2) (mapVal f r2)) k1).1 =
          mapVal f (split (node k2 x2 q2 l2 r2) k1).1 := by
        have h11 : (split (mapVal f (node k2 x2 q2 l2 r2)) k1).1 =
            mapVal f (split (node k2 x2 q2 l2 r2) k1).1 := by rw [hsp]
        simpa [mapVal] using h11
      have h2 : (split (node k2 (f x2) q2 (mapVal f l2) (mapVal f r2)) k1).2.1 =
          mapVal f (split (node k2 x2 q2 l2 r2) k1).2.1 := by
        have h21 : (split (mapVal f (node k2 x2 q2 l2 r2)) k1).2.1 =
            mapVal f (split (node k2 x2 q2 l2 r2) k1).2.1 := by rw [hsp]
        simpa [mapVal] using h21
      simp only [mapVal]
      rw [difference_eq_none hE2, difference_eq_none hE, h1, h2, ih1, ih2]
  | case4 k1 x1 q1 l1 r1 k2 x2 q2 l2 r2 m mv mq ml mr hE ih1 ih2 =>
      have hsp := split_mapVal f (node k2 x2 q2 l2 r2) k1
      have hE2 : (split (node k2 (f x2) q2 (mapVal f l2) (mapVal f r2)) k1).2.2 =
          node m (f mv) mq (mapVal f ml) (mapVal f mr) := by
        have h22 : (split (mapVal f (node k2 x2 q2 l2 r2)) k1).2.2 =
            mapVal f (split (node k2 x2 q2 l2 r2) k1).2.2 := by rw [hsp]
        simpa [mapVal, hE] using h22
      have h1 : (split (node k2 (f x2) q2 (mapVal f l2) (mapVal f r2)) k1).1 =
          mapVal f (split (node k2 x2 q2 l2 r2) k1).1 := by
        have h11 : (split (mapVal f (node k2 x2 q2 l2 r2)) k1).1 =
            mapVal f (split (node k2 x2 q2 l2 r2) k1).1 := by rw [hsp]
        simpa [mapVal] using h11
      have h2 : (split (node k2 (f x2) q2 (mapVal f l2) (mapVal f r2)) k1).2.1 =
          mapVal f (split (node k2 x2 q2 l2 r2) k1).2.1 := by
        have h21 : (split (mapVal f (node k2 x2 q2 l2 r2)) k1).2.1 =
            mapVal f (split (node k2 x2 q2 l2 r2) k1).2.1 := by rw [hsp]
        simpa [mapVal] using h21
      simp only [mapVal]
      rw [difference_eq_some hE2, difference_eq_some hE, h1, h2, ih1, ih2]

theorem bst_singleton (k : K) (v : V) (pr : Int) : bst (singleton k v pr : Treap K V) = true := by
  simp [singleton, bst, allKeys]

theorem heap_singleton (k : K) (v : V) (pr : Int) :
    heap (singleton k v pr : Treap K V) = true := by
  simp [singleton, heap, pLe]

/-- A small example treap (keys 1, 2, 3), satisfying both invariants. -/
def exA : Treap Int Int :=
  node 2 20 1 (node 1 10 5 nil nil) (node 3 30 4 nil nil)

/-- A second example treap (keys 0, 2, 4), satisfying both invariants. -/
def exB : Treap Int Int :=
  node 2 200 2 (node 0 5 7 nil nil) (node 4 40 6 nil nil)

/-- C1: for every pair of valid treaps A and B, the in-order traversal of
`treap_union A B` contains exactly the union of the key sets, each key paired
with A's value when the key is in A and with B's value otherwise (left-biased
union). -/
theorem treap_union_semantics (A B : Treap K V)
    (hbA : bst A = true) (hhA : heap A = true)
    (hbB : bst B = true) (hhB : heap B = true) (k : K) (v : V) :
    ((k, v) ∈ toList (treap_union A B) ↔
      ((k, v) ∈ toList A ∨ (k ∉ keys A ∧ (k, v) ∈ toList B))) := by
  simpa [treap_union] using union_mem hbA hbB k v

/-- Witness for C1: the union semantics applied at concrete valid treaps. -/
theorem treap_union_semantics_witness :
    bst exA = true ∧ heap exA = true ∧ bst exB = true ∧ heap exB = true ∧
      ((2, 20) ∈ toList (treap_union exA exB) ↔
        ((2, 20) ∈ toList exA ∨ (2 ∉ keys exA ∧ (2, 20) ∈ toList exB))) :=
  ⟨by decide, by decide, by decide, by decide,
    treap_union_semantics exA exB (by decide) (by decide) (by decide) (by decide) 2 20⟩

/-- C2: for every pair of valid treaps A and B, the in-order traversal of
`difference A B` is exactly the traversal of A filtered to keys not in B,
each with its original value from A. -/
theorem difference_semantics (A B : Treap K V)
    (hbA : bst A = true) (hhA : heap A = true)
    (hbB : bst B = true) (hhB : heap B = true) :
    toList (difference A B) =
      (toList A).filter (fun e => decide (e.1 ∉ keys B)) := by
  simpa [difference] using difference_toList hbA hbB

/-- Witness for C2: the difference semantics applied at concrete valid treaps. -/
theorem difference_semantics_witness :
    bst exA = true ∧ heap exA = true ∧ bst exB = true ∧ heap exB = true ∧
      toList (difference exA exB) =
        (toList exA).filter (fun e => decide (e.1 ∉ keys exB)) :=
  ⟨by decide, by decide, by decide, by decide,
    difference_semantics exA exB (by decide) (by decide) (by decide) (by decide)⟩

/-- C3: for every pair of valid treaps A and B, the in-order traversal of
`intersection A B` is exactly the traversal of A filtered to keys also in B,
each with the value taken from A. -/
theorem intersection_semantics (A B : Treap K V)
    (hbA : bst A = true) (hhA : heap A = true)
    (hbB : bst B = true) (hhB : heap B = true) :
    toList (intersection A B) =
      (toList A).filter (fun e => decide (e.1 ∈ keys B)) := by
  simpa [intersection] using intersect_toList hbA hbB

/-- Witness for C3: the intersection semantics applied at concrete valid treaps. -/
theorem intersection_semantics_witness :
    bst exA = true ∧ heap exA = true ∧ bst exB = true ∧ heap exB = true ∧
      toList (intersection exA exB) =
        (toList exA).filter (fun e => decide (e.1 ∈ keys exB)) :=
  ⟨by decide, by decide, by decide, by decide,
    intersection_semantics exA exB (by decide) (by decide) (by decide) (by decide)⟩

/-- C4: every operation (split, join with its ordering precondition, union,
intersect, difference, insert, remove), applied to inputs satisfying the
search-tree and heap invariants, produces outputs in which every reachable
node satisfies both invariants. -/
theorem ops_preserve_invariants (A B : Treap K V) (k : K) (v pl : V) (pr : Int)
    (hbA : bst A = true) (hhA : heap A = true)
    (hbB : bst B = true) (hhB : heap B = true) :
    (bst (split A k).1 = true ∧ heap (split A k).1 = true ∧
      bst (split A k).2.1 = true ∧ heap (split A k).2.1 = true) ∧
    ((∀ j ∈ keys A, ∀ j2 ∈ keys B, j < j2) →
      (bst (join A B) = true ∧ heap (join A B) = true)) ∧
    (bst (treap_union A B) = true ∧ heap (treap_union A B) = true) ∧
    (bst (intersection A B) = true ∧ heap (intersection A B) = true) ∧
    (bst (difference A B) = true ∧ heap (difference A B) = true) ∧
    (bst (insert A k v pr) = true ∧ heap (insert A k v pr) = true) ∧
    (bst (remove A k pl pr) = true ∧ heap (remove A k pl pr) = true) := by
  refine ⟨⟨(split_bst k hbA).1, (split_heap k hhA).1,
    (split_bst k hbA).2, (split_heap k hhA).2⟩, ?_, ?_, ?_, ?_, ?_, ?_⟩
  · intro hsep
    exact ⟨bst_join hbA hbB hsep, heap_join hhA hhB⟩
  · constructor
    · simpa [treap_union] using bst_union hbA hbB
    · simpa [treap_union] using heap_union hhA hhB
  · constructor
    · simpa [intersection] using bst_intersect hbA hbB
    · simpa [intersection] using heap_intersect hhA hhB
  · constructor
    · simpa [difference] using bst_difference hbA
    · simpa [difference] using heap_difference hhA
  · constructor
    · simpa [insert, treap_union] using bst_union (bst_singleton k v pr) hbA
    · simpa [insert, treap_union] using heap_union (heap_singleton k v pr) hhA
  · constructor
    · simpa [remove, difference] using
        bst_difference (b := singleton k pl pr) hbA
    · simpa [remove, difference] using
        heap_difference (b := singleton k pl pr) hhA

/-- Witness for C4: invariant preservation at concrete valid treaps. -/
theorem ops_preserve_invariants_witness :
    bst exA = true ∧ heap exA = true ∧ bst exB = true ∧ heap exB = true ∧
      (bst (treap_union exA exB) = true ∧ heap (treap_union exA exB) = true) :=
  ⟨by decide, by decide, by decide, by decide,
    (ops_preserve_invariants exA exB 2 9 0 3
      (by decide) (by decide) (by decide) (by decide)).2.2.1⟩

/-- C5: for a valid treap, `split t key` produces the tree of entries with
key strictly below `key`, the tree of entries with key strictly above `key`,
and the matched node exactly when `key` occurs; the matched node carries the
key and its stored value, and neither output tree contains `key`. -/
theorem split_spec (t : Treap K V) (key : K)
    (hb : bst t = true) (hh : heap t = true) :
    toList (split t key).1 = (toList t).filter (fun e => decide (e.1 < key)) ∧
    toList (split t key).2.1 = (toList t).filter (fun e => decide (key < e.1)) ∧
    ((split t key).2.2 = nil ↔ key ∉ keys t) ∧
    (∀ e, rootEntry (split t key).2.2 = some e → e.1 = key ∧ e ∈ toList t) ∧
    key ∉ keys (split t key).1 ∧ key ∉ keys (split t key).2.1 := by
  refine ⟨split_toList_fst key hb, split_toList_snd key hb,
    split_matched_nil_iff key hb, split_matched_entry key hb, ?_, ?_⟩
  · intro hc
    exact absurd ((mem_keys_split_fst key hb).mp hc).2 (lt_irrefl key)
  · intro hc
    exact absurd ((mem_keys_split_snd key hb).mp hc).2 (lt_irrefl key)

/-- Witness for C5: the split specification at a concrete valid treap. -/
theorem split_spec_witness :
    bst exA = true ∧ heap exA = true ∧
      toList (split exA 2).1 = (toList exA).filter (fun e => decide (e.1 < 2)) :=
  ⟨by decide, by decide, (split_spec exA 2 (by decide) (by decide)).1⟩

/-- C6: the iterative hole-based formulation `split_loop` computes exactly
the same triple as the recursive formulation `split_rec`, on every treap and
key: the two formulations are semantically identical. -/
theorem split_loop_eq_split_rec (t : Treap K V) (key : K) :
    split_loop t key = split_rec t key := by
  rw [split_loop, split_loop_go_eq]
  simp

/-- C7: removing an absent key is a no-op: the traversal of the result is
exactly the traversal of the input, for any placeholder value and priority. -/
theorem remove_absent_noop (D : Treap K V) (k : K) (pl : V) (pr : Int)
    (hb : bst D = true) (hh : heap D = true) (hk : k ∉ keys D) :
    toList (remove D k pl pr) = toList D := by
  rw [show remove D k pl pr = difference_helper D (singleton k pl pr) from rfl]
  rw [difference_toList hb (bst_singleton k pl pr)]
  apply List.filter_eq_self.mpr
  intro e he
  simp only [singleton, keys, toList, List.map_append, List.map_cons, decide_eq_true_eq]
  simp only [List.map_nil, List.nil_append, List.mem_cons, List.not_mem_nil, or_false]
  intro hc
  exact hk (hc ▸ mem_keys_of_mem_toList he)

/-- Witness for C7: removing the absent key 5 from a concrete treap. -/
theorem remove_absent_noop_witness :
    bst exA = true ∧ heap exA = true ∧ (5 : Int) ∉ keys exA ∧
      toList (remove exA 5 0 3) = toList exA :=
  ⟨by decide, by decide, by decide,
    remove_absent_noop exA 5 0 3 (by decide) (by decide) (by decide)⟩

/-- C8: the placeholder value handed to `remove` is structurally discarded:
removing with any two placeholders gives identical results, and more
generally the values stored in the second operand of `difference` never
influence the result. -/
theorem remove_placeholder_discarded (A B : Treap K V) (k : K) (p1 p2 : V)
    (pr : Int) (f : V → V) :
    remove A k p1 pr = remove A k p2 pr ∧
    difference A (mapVal f B) = difference A B := by
  constructor
  · rw [show remove A k p1 pr = difference_helper A (singleton k p1 pr) from rfl]
    rw [show remove A k p2 pr = difference_helper A (singleton k p2 pr) from rfl]
    rw [show (singleton k p1 pr : Treap K V) =
      mapVal (fun _ => p1) (singleton k p2 pr) from rfl]
    exact difference_mapVal (fun _ => p1)
  · rw [show difference A (mapVal f B) = difference_helper A (mapVal f B) from rfl]
    rw [show difference A B = difference_helper A B from rfl]
    exact difference_mapVal f

/-- C9: every recursive call of the set-algebra operations acts on a
strictly smaller combined size: recursing into a child of one operand and a
split component of the other (in either operand order) strictly decreases
`size v1 + size v2`, which is the termination measure of `union_helper`,
`intersect_helper` and `difference_helper`. -/
theorem setops_recursive_calls_shrink (k : K) (x : V) (q : Int) (l r t : Treap K V) :
    (size l + size (split t k).1 < size (node k x q l r) + size t) ∧
    (size r + size (split t k).2.1 < size (node k x q l r) + size t) ∧
    (size (split t k).1 + size l < size t + size (node k x q l r)) ∧
    (size (split t k).2.1 + size r < size t + size (node k x q l r)) := by
  have h1 := split_size_fst t k
  have h2 := split_size_snd t k
  simp only [size]
  omega

/-- C10: when the two root priorities are exactly equal, `join` and
`union_helper` both take the `else` branch, making the second operand's
root key the root of the result. -/
theorem equal_priority_tie_right (k1 k2 : K) (x1 x2 : V) (q : Int)
    (l1 r1 l2 r2 : Treap K V) :
    rootKey (join (node k1 x1 q l1 r1) (node k2 x2 q l2 r2)) = some k2 ∧
    rootKey (union_helper (node k1 x1 q l1 r1) (node k2 x2 q l2 r2)) = some k2 := by
  constructor
  · rw [show join (node k1 x1 q l1 r1) (node k2 x2 q l2 r2) =
      node k2 x2 q (join (node k1 x1 q l1 r1) l2) r2 from by
        rw [join]; simp]
    rfl
  · rw [union_eq_ge (lt_irrefl q)]
    rfl

end PTreap
